import Mathlib

/-!
# TTML time-code codec and document mapper (`subtitles/ttml.go`)

A shallow embedding of the TTML reader and writer of the `astisub` package.

* `time.Duration` and `int` are signed 64-bit integers: they are modelled as
  `Int`, with `wrapInt64` applied where the source's arithmetic can overflow.
* `float64` is modelled by finite binary64 values `m * 2 ^ e` with exact
  round-to-nearest-even arithmetic (`roundQuot`); every value `Duration`
  computes lies in the normal range of binary64, so exponent limits,
  infinities and NaN play no role.
* Text is a list of characters.
-/

namespace Astisub

/-! ## Machine integers -/

/-- Two's-complement wrap-around of a signed 64-bit integer. -/
def wrapInt64 (x : Int) : Int := (x + 2 ^ 63) % 2 ^ 64 - 2 ^ 63

/-- An `int64` value. -/
def inInt64 (x : Int) : Prop := -(2 ^ 63) ≤ x ∧ x < 2 ^ 63

instance (x : Int) : Decidable (inInt64 x) := by
  unfold inInt64; exact inferInstance

/-! ## binary64 arithmetic -/

/-- A finite `float64` value, `m * 2 ^ e`. -/
structure Float64 where
  m : Int
  e : Int
  deriving DecidableEq, Repr

/-- The loop of `ilog2`, bounded by `fuel` halvings. -/
def ilog2Aux : Nat → Nat → Nat
  | 0, _ => 0
  | fuel + 1, n => if n < 2 then 0 else ilog2Aux fuel (n / 2) + 1

/-- The position of the highest set bit of `n`: `2 ^ ilog2 n ≤ n < 2 ^ (ilog2 n + 1)`
for `n ≠ 0`. -/
def ilog2 (n : Nat) : Nat := ilog2Aux n n

/-- The quotient `N / D` rounded to the nearest natural number, a tie going to
the even neighbour. -/
def roundHalfEven (N D : Nat) : Nat :=
  let q : Nat := N / D
  let r : Nat := N % D
  if D < 2 * r ∨ (2 * r = D ∧ q % 2 = 1) then q + 1 else q

/-- The binary exponent `E` of the positive rational `n / d`:
`2 ^ E ≤ n / d < 2 ^ (E + 1)`. -/
def binaryExponent (n d : Nat) : Int :=
  let t : Int := (ilog2 n : Int) - (ilog2 d : Int)
  if d * 2 ^ t.toNat ≤ n * 2 ^ (-t).toNat then t else t - 1

/-- Round the positive rational `n / d` to 53 significant bits, to nearest
with ties to even: the result `(q, s)` stands for `q * 2 ^ s`. -/
def roundQuot (n d : Nat) : Nat × Int :=
  if n = 0 then (0, 0)
  else
    let s : Int := binaryExponent n d - 52
    (roundHalfEven (n * 2 ^ (-s).toNat) (d * 2 ^ s.toNat), s)

/-- The rational number a `float64` value stands for. -/
def Float64.val (x : Float64) : ℚ := (x.m : ℚ) * (2 : ℚ) ^ x.e

/-- Conversion `float64(i)` of an integer. -/
def Float64.ofInt (i : Int) : Float64 :=
  let qs := roundQuot i.natAbs 1
  ⟨i.sign * qs.1, qs.2⟩

/-- Division `a / b` of `float64` values. The divisor is non-zero at the only
call site (`framerate > 0`); for a zero divisor, where binary64 gives an
infinity or a NaN, this model gives zero. -/
def Float64.div (a b : Float64) : Float64 :=
  let qs := roundQuot a.m.natAbs b.m.natAbs
  ⟨a.m.sign * b.m.sign * qs.1, qs.2 + a.e - b.e⟩

/-- Multiplication `a * b` of `float64` values. -/
def Float64.mul (a b : Float64) : Float64 :=
  let qs := roundQuot (a.m * b.m).natAbs 1
  ⟨(a.m * b.m).sign * qs.1, qs.2 + a.e + b.e⟩

/-- The constant `1e9`, which binary64 holds exactly. -/
def Float64.billion : Float64 := ⟨1000000000, 0⟩

/-- Truncation toward zero of a `float64` value to an integer. -/
def Float64.trunc (x : Float64) : Int :=
  if 0 ≤ x.e then x.m * 2 ^ x.e.toNat else Int.tdiv x.m (2 ^ (-x.e).toNat)

/-- Conversion `time.Duration(x)` of a `float64` value to `int64`: truncation
toward zero; a value outside the `int64` range converts to the smallest
`int64` (the amd64 behaviour; the language leaves it to the implementation). -/
def Float64.toInt64 (x : Float64) : Int :=
  if inInt64 x.trunc then x.trunc else -(2 ^ 63)

/-! ## `TTMLDuration` -/

/-- The type `TTMLDuration`: a base duration in nanoseconds, a frame count and
a frame rate in frames per second. -/
structure TTMLDuration where
  d : Int
  frames : Int
  framerate : Int
  deriving DecidableEq, Repr

/-- The number of nanoseconds `float64(frames)/float64(framerate)*1e9`
converts to. -/
def frameNanos (frames framerate : Int) : Int :=
  Float64.toInt64
    (Float64.mul (Float64.div (Float64.ofInt frames) (Float64.ofInt framerate)) Float64.billion)

/-- The method `TTMLDuration.Duration`. -/
def TTMLDuration.Duration (d : TTMLDuration) : Int :=
  if d.framerate > 0 then
    wrapInt64 (d.d + wrapInt64 (frameNanos d.frames d.framerate * 1))
  else d.d

/-! ## Text, errors and `strconv.Atoi` -/

/-- Text: the characters of a Go string or byte slice. -/
abbrev Text := List Char

/-- The error values the package handles. -/
inductive Error where
  /-- Modelled from the spec: the package sentinel `ErrNoSubtitlesToWrite`
  (`EmptyInputError`), declared outside the files at hand. -/
  | ErrNoSubtitlesToWrite
  /-- The `strconv` syntax error. -/
  | atoiSyntax (s : Text)
  /-- The `strconv` range error. -/
  | atoiRange (s : Text)
  /-- An error wrapped by `errors.Wrapf(err, "atoi %s failed", s)`. -/
  | atoiFailed (cause : Error) (s : Text)
  /-- The error of `parseDuration` on a malformed clock time. -/
  | format (s : Text)
  /-- An error of `encoding/xml` or of the reader or writer under it. -/
  | xml (msg : String)
  deriving DecidableEq, Repr

/-- An ASCII digit, the class `\d` of the `regexp` package. -/
def isDigit (c : Char) : Bool := decide ('0' ≤ c) && decide (c ≤ '9')

/-- The base-10 value of a run of digits, most significant first. -/
def digitsValue (ds : Text) : Nat :=
  ds.foldl (fun a c => 10 * a + (c.toNat - 48)) 0

/-- The function `strconv.Atoi` for a 64-bit `int`: an optional sign and a
non-empty run of digits; on failure the returned value is `0` for a syntax
error and the nearest `int` for a range error. -/
def Atoi (s : Text) : Int × Option Error :=
  let neg : Bool := s.head? = some '-'
  let body : Text := if s.head? = some '-' ∨ s.head? = some '+' then s.tail else s
  if body = [] ∨ body.all isDigit = false then (0, some (Error.atoiSyntax s))
  else
    let v : Int := digitsValue body
    if neg then
      if v ≤ 2 ^ 63 then (-v, none) else (-(2 ^ 63), some (Error.atoiRange s))
    else
      if v < 2 ^ 63 then (v, none) else (2 ^ 63 - 1, some (Error.atoiRange s))

/-! ## The frame suffix `regexpTTMLDurationFrames` -/

/-- Whether the pattern `\:[\d]+$` matches at the start of the text and
reaches its end: a colon, then one or more digits, then the end of the text. -/
def matchFramesHere : Text → Bool
  | [] => false
  | c :: cs => decide (c = ':') && !cs.isEmpty && cs.all isDigit

/-- The loop of `FindStringIndex`: the leftmost match at or after offset `pos`,
where `text` is what is left of the input from `pos` on. -/
def findFramesFrom : Text → Nat → Option (Nat × Nat)
  | [], _ => none
  | c :: cs, pos =>
    if matchFramesHere (c :: cs) then some (pos, pos + (c :: cs).length)
    else findFramesFrom cs (pos + 1)

/-- The call `regexpTTMLDurationFrames.FindStringIndex(text)`: the bounds
`[start, end)` of the leftmost match of `\:[\d]+$`, if there is one. -/
def FindStringIndex (text : Text) : Option (Nat × Nat) := findFramesFrom text 0

/-! ## `UnmarshalText` -/

/-- The method `TTMLDuration.UnmarshalText`, for a receiver `t` and input `i`;
`parseDuration` is the package helper of that name. The result is the receiver
after the call and the returned error. -/
def TTMLDuration.UnmarshalText (parseDuration : Text → Char → Int × Option Error)
    (t : TTMLDuration) (i : Text) : TTMLDuration × Option Error :=
  let text : Text := i
  match FindStringIndex text with
  | some indexes =>
    let s : Text := (text.take indexes.2).drop (indexes.1 + 1)
    let r := Atoi s
    let t1 : TTMLDuration := { t with frames := r.1 }
    match r.2 with
    | some err => (t1, some (Error.atoiFailed err s))
    | none =>
      let text1 : Text := text.take indexes.1 ++ ".000".toList
      let p := parseDuration text1 '.'
      ({ t1 with d := p.1 }, p.2)
  | none =>
    let p := parseDuration text '.'
    ({ t with d := p.1 }, p.2)

/-! ## The clock-time helpers `parseDuration` and `formatDuration` -/

/-- Split a text at every occurrence of the separator. -/
def splitOnChar (sep : Char) : Text → List Text
  | [] => [[]]
  | c :: cs =>
    if c = sep then [] :: splitOnChar sep cs
    else
      match splitOnChar sep cs with
      | [] => [[c]]
      | p :: ps => (c :: p) :: ps

/-- A numeric field: a non-empty run of ASCII digits. -/
def isNumeric (s : Text) : Bool := !s.isEmpty && s.all isDigit

/-- The constant `time.Millisecond`, in nanoseconds. -/
def nsPerMillisecond : Nat := 1000000

/-- The constant `time.Second`, in nanoseconds. -/
def nsPerSecond : Nat := 1000000000

/-- The constant `time.Minute`, in nanoseconds. -/
def nsPerMinute : Nat := 60000000000

/-- The constant `time.Hour`, in nanoseconds. -/
def nsPerHour : Nat := 3600000000000

/-- Modelled from the spec: the helper `parseDuration`, whose source is not
among the files at hand. Following section 4.1, step 2: the text must have
the shape `hh:mm:ss<sep>mmm`, that is hours (two digits or more), minutes (two
digits), seconds (two digits) and a three-digit sub-second fraction, every
field numeric; the fields are combined into one duration. Any other text
fails with a format error, and the returned duration is then `0`. -/
def parseDuration (i : Text) (sep : Char) : Int × Option Error :=
  match splitOnChar sep i with
  | [clock, frac] =>
    match splitOnChar ':' clock with
    | [hh, mm, ss] =>
      if isNumeric hh && isNumeric mm && isNumeric ss && isNumeric frac
          && decide (2 ≤ hh.length) && decide (mm.length = 2) && decide (ss.length = 2)
          && decide (frac.length = 3) then
        (wrapInt64 (digitsValue hh * nsPerHour + digitsValue mm * nsPerMinute
          + digitsValue ss * nsPerSecond + digitsValue frac * nsPerMillisecond), none)
      else (0, some (Error.format i))
    | _ => (0, some (Error.format i))
  | _ => (0, some (Error.format i))

/-- The decimal digit `n` as a character, for `n < 10`. -/
def digitChar (n : Nat) : Char := Char.ofNat (48 + n)

/-- The loop of `Itoa`: at most `fuel` digits of `n` are put before `acc`. -/
def itoaAux : Nat → Nat → Text → Text
  | 0, _, acc => acc
  | fuel + 1, n, acc =>
    if n < 10 then digitChar n :: acc
    else itoaAux fuel (n / 10) (digitChar (n % 10) :: acc)

/-- The decimal rendering of a natural number, without leading zeros. -/
def Itoa (n : Nat) : Text := itoaAux (n + 1) n []

/-- A number zero-padded to at least two digits. -/
def pad2 (n : Nat) : Text := if n < 10 then '0' :: Itoa n else Itoa n

/-- A number below 1000 as exactly three digits. -/
def pad3 (n : Nat) : Text :=
  [digitChar (n / 100 % 10), digitChar (n / 10 % 10), digitChar (n % 10)]

/-- Modelled from the spec: the helper `formatDuration`, whose source is not
among the files at hand. Following section 4.1 (Format): the text is always
`hh:mm:ss<sep>mmm`, with a three-digit millisecond fraction, hours zero-padded
to at least two digits and not reduced modulo 24; what is below a millisecond
is dropped. The spec does not say how a negative duration is rendered: here it
is the rendering of its absolute value after a minus sign. -/
def formatDuration (i : Int) (sep : Char) : Text :=
  let n : Nat := i.natAbs
  (if i < 0 then ['-'] else [])
    ++ pad2 (n / nsPerHour) ++ [':']
    ++ pad2 (n % nsPerHour / nsPerMinute) ++ [':']
    ++ pad2 (n % nsPerMinute / nsPerSecond) ++ [sep]
    ++ pad3 (n % nsPerSecond / nsPerMillisecond)

/-- The method `TTMLDuration.MarshalText`: the text and the (always nil) error. -/
def TTMLDuration.MarshalText (t : TTMLDuration) : Text × Option Error :=
  (formatDuration t.Duration '.', none)

/-! ## The document types -/

/-- The type `TTMLText`. -/
structure TTMLText where
  Style : String := ""
  Sentence : String := ""
  deriving DecidableEq, Repr

/-- The type `TTMLSubtitle`; `Begin` and `End` are pointers, `none` when nil. -/
structure TTMLSubtitle where
  Begin : Option TTMLDuration := none
  End : Option TTMLDuration := none
  ID : String := ""
  Region : String := ""
  Text : List TTMLText := []
  deriving DecidableEq, Repr

/-- The type `TTMLRegion`. -/
structure TTMLRegion where
  Extent : String := ""
  ID : String := ""
  Origin : String := ""
  Style : String := ""
  ZIndex : String := ""
  deriving DecidableEq, Repr

/-- The type `TTMLStyle`. -/
structure TTMLStyle where
  BackgroundColor : String := ""
  Color : String := ""
  DisplayAlign : String := ""
  Extent : String := ""
  FontFamily : String := ""
  FontSize : String := ""
  ID : String := ""
  Origin : String := ""
  Style : String := ""
  TextAlign : String := ""
  deriving DecidableEq, Repr

/-- The type `TTML` (its `XMLName` carries no data of the mapping and is left
out). -/
structure TTML where
  Framerate : Int := 0
  Lang : String := ""
  Regions : List TTMLRegion := []
  Styles : List TTMLStyle := []
  Subtitles : List TTMLSubtitle := []
  deriving DecidableEq, Repr

/-- Modelled from the spec: the type `Subtitle` of the package, declared
outside the files at hand: a start time, an end time and text lines. -/
structure Subtitle where
  EndAt : Int := 0
  StartAt : Int := 0
  Text : List String := []
  deriving DecidableEq, Repr

/-- Modelled from the spec: the type `Subtitles` of the package, declared
outside the files at hand: the ordered cues. The source appends `&Subtitle{...}`
to `Items`, so its items are pointers; every item here is a cue, never nil. -/
structure Subtitles where
  Items : List Subtitle := []
  deriving DecidableEq, Repr

/-! ## The XML layer

`encoding/xml` is a library outside the package. What it does for the `TTML`
type is fixed by the field tags: it hands every `begin` and `end` attribute
text to `UnmarshalText` on reading and obtains it from `MarshalText` on
writing, and it stops at the first error. -/

/-- A `p` element as the XML tokenizer delivers it, its `begin` and `end`
attribute texts not yet unmarshalled (`none` for an absent attribute). -/
structure XMLCue where
  beginAttr : Option Text := none
  endAttr : Option Text := none
  id : String := ""
  region : String := ""
  spans : List TTMLText := []
  deriving DecidableEq, Repr

/-- A `tt` document as the XML tokenizer delivers it. -/
structure XMLDocument where
  frameRate : Int := 0
  lang : String := ""
  regions : List TTMLRegion := []
  styles : List TTMLStyle := []
  cues : List XMLCue := []
  deriving DecidableEq, Repr

/-- What `xml.NewDecoder(i)` finds in the reader: a stream the library itself
rejects (malformed XML, a failing reader, a `frameRate` that is no integer),
or a document. -/
inductive XMLInput where
  | malformed (err : Error)
  | document (doc : XMLDocument)
  deriving DecidableEq, Repr

/-- Unmarshalling of one `begin` or `end` attribute into a `*TTMLDuration`
field: an absent attribute leaves the pointer nil, a present one allocates a
zero `TTMLDuration` and calls `UnmarshalText` on it. -/
def unmarshalAttr (parseDuration : Text → Char → Int × Option Error)
    (attr : Option Text) : Option TTMLDuration × Option Error :=
  match attr with
  | none => (none, none)
  | some v =>
    let r := TTMLDuration.UnmarshalText parseDuration ⟨0, 0, 0⟩ v
    (some r.1, r.2)

/-- Unmarshalling of one `p` element into a `TTMLSubtitle`. -/
def decodeCue (parseDuration : Text → Char → Int × Option Error)
    (c : XMLCue) : TTMLSubtitle × Option Error :=
  let b := unmarshalAttr parseDuration c.beginAttr
  match b.2 with
  | some err => ({ Begin := b.1 }, some err)
  | none =>
    let e := unmarshalAttr parseDuration c.endAttr
    match e.2 with
    | some err => ({ Begin := b.1, End := e.1 }, some err)
    | none => ({ Begin := b.1, End := e.1, ID := c.id, Region := c.region, Text := c.spans }, none)

/-- Unmarshalling of the `p` elements in document order, up to the first error. -/
def decodeCues (parseDuration : Text → Char → Int × Option Error) :
    List XMLCue → List TTMLSubtitle × Option Error
  | [] => ([], none)
  | c :: cs =>
    let r := decodeCue parseDuration c
    match r.2 with
    | some err => ([r.1], some err)
    | none =>
      let rs := decodeCues parseDuration cs
      (r.1 :: rs.1, rs.2)

/-- The call `xml.NewDecoder(i).Decode(&ttml)` on a zero `ttml`: the value of
`ttml` after the call and the returned error. -/
def Decode (parseDuration : Text → Char → Int × Option Error)
    (i : XMLInput) : TTML × Option Error :=
  match i with
  | XMLInput.malformed err => ({}, some err)
  | XMLInput.document doc =>
    let r := decodeCues parseDuration doc.cues
    ({ Framerate := doc.frameRate, Lang := doc.lang, Regions := doc.regions,
       Styles := doc.styles, Subtitles := r.1 }, r.2)

/-- Marshalling of one `*TTMLDuration` attribute: a nil pointer gives no
attribute, any other the text of `MarshalText`. -/
def marshalAttr (t : Option TTMLDuration) : Option Text :=
  t.map (fun d => d.MarshalText.1)

/-- Marshalling of one `TTMLSubtitle` into a `p` element. -/
def encodeCue (s : TTMLSubtitle) : XMLCue :=
  { beginAttr := marshalAttr s.Begin, endAttr := marshalAttr s.End,
    id := s.ID, region := s.Region, spans := s.Text }

/-- The document the encoder emits for a `TTML` value. -/
def encodeDocument (ttml : TTML) : XMLDocument :=
  { frameRate := ttml.Framerate, lang := ttml.Lang, regions := ttml.Regions,
    styles := ttml.Styles, cues := ttml.Subtitles.map encodeCue }

/-! ## `ReadFromTTML` and `WriteToTTML` -/

/-- How a call ends: it returns its two results, or it panics. -/
inductive Outcome where
  | returned (o : Subtitles) (err : Option Error)
  | panicked
  deriving DecidableEq, Repr

/-- The body of the loop of `ReadFromTTML` for one element `s`, appending to
`o`; `none` stands for the panic of a nil pointer dereference. -/
def readStep (framerate : Int) (o : Subtitles) (s : TTMLSubtitle) : Option Subtitles :=
  let text : List String := s.Text.foldl (fun text t => text ++ [t.Sentence]) []
  match s.Begin with
  | none => none
  | some b =>
    let b1 : TTMLDuration := { b with framerate := framerate }
    match s.End with
    | none => none
    | some e =>
      let e1 : TTMLDuration := { e with framerate := framerate }
      some { o with Items := o.Items ++ [{ EndAt := e1.Duration, StartAt := b1.Duration, Text := text }] }

/-- The loop of `ReadFromTTML` over `ttml.Subtitles`. -/
def readLoop (framerate : Int) : List TTMLSubtitle → Subtitles → Option Subtitles
  | [], o => some o
  | s :: rest, o =>
    match readStep framerate o s with
    | none => none
    | some o1 => readLoop framerate rest o1

/-- The part of `ReadFromTTML` after the XML is unmarshalled, on the `ttml`
value and the error of `Decode`. -/
def readFromDecoded (ttml : TTML) (err : Option Error) : Outcome :=
  let o : Subtitles := {}
  match err with
  | some e => Outcome.returned o (some e)
  | none =>
    match readLoop ttml.Framerate ttml.Subtitles o with
    | none => Outcome.panicked
    | some o1 => Outcome.returned o1 none

/-- The function `ReadFromTTML`. -/
def ReadFromTTML (parseDuration : Text → Char → Int × Option Error) (i : XMLInput) : Outcome :=
  let r := Decode parseDuration i
  readFromDecoded r.1 r.2

/-- The loop of `WriteToTTML`: the `TTML` value built from the items. -/
def buildTTML (items : List Subtitle) : TTML :=
  items.foldl (fun ttml sub =>
    let text : List TTMLText := sub.Text.foldl (fun text t => text ++ [{ Sentence := t }]) []
    { ttml with Subtitles := ttml.Subtitles ++
        [{ Begin := some { d := sub.StartAt, frames := 0, framerate := 0 },
           End := some { d := sub.EndAt, frames := 0, framerate := 0 },
           Text := text }] }) {}

/-- The method `Subtitles.WriteToTTML`. The writer `o` is a value of any type
`W`; `Encode ttml o` stands for `xml.NewEncoder(o)`, `Indent` and
`Encode(ttml)`: it gives the writer after the call and the returned error. -/
def Subtitles.WriteToTTML {W : Type} (Encode : TTML → W → W × Option Error)
    (s : Subtitles) (o : W) : W × Option Error :=
  if s.Items.length = 0 then (o, some Error.ErrNoSubtitlesToWrite)
  else Encode (buildTTML s.Items) o

/-! ## Predicates and values the statements use -/

/-- A duration that `hh:mm:ss.mmm` can hold: a non-negative `int64` number of
nanoseconds that is a whole number of milliseconds. -/
def wholeMilliseconds (d : Int) : Prop := 0 ≤ d ∧ d < 2 ^ 63 ∧ d % 1000000 = 0

instance (d : Int) : Decidable (wholeMilliseconds d) := by
  unfold wholeMilliseconds; exact inferInstance

/-- The cue element the writer makes of one cue: `begin` and `end` hold the
start and end time with no frames and no frame rate, and there is one span
without style per text line. -/
def cueElement (sub : Subtitle) : TTMLSubtitle :=
  { Begin := some { d := sub.StartAt, frames := 0, framerate := 0 },
    End := some { d := sub.EndAt, frames := 0, framerate := 0 },
    ID := "", Region := "",
    Text := sub.Text.map (fun t => { Style := "", Sentence := t }) }

/-- The cue the reader makes of a cue element with timecodes `b` and `e` under
the document frame rate. -/
def resolvedCue (framerate : Int) (b e : TTMLDuration) (spans : List TTMLText) : Subtitle :=
  { EndAt := ({ e with framerate := framerate } : TTMLDuration).Duration,
    StartAt := ({ b with framerate := framerate } : TTMLDuration).Duration,
    Text := spans.map (fun t => t.Sentence) }

/-- The characters after the last `:` of a text, `none` for a text without
`:`. -/
def afterLastColon : Text → Option Text
  | [] => none
  | c :: cs =>
    match afterLastColon cs with
    | some rest => some rest
    | none => if c = ':' then some cs else none

/-- The frame-based form as the claim words it: the text has a `:`, and what
follows its last `:` is a non-empty run of ASCII digits reaching the end. -/
def frameBased (text : Text) : Bool :=
  match afterLastColon text with
  | some ds => !ds.isEmpty && ds.all isDigit
  | none => false

/-- The document of the scenario of section 8: frame rate 25 and one cue from
`00:00:01:10` to `00:00:02.500` with the span `hello`. -/
def exampleInput : XMLInput :=
  XMLInput.document
    { frameRate := 25,
      cues := [{ beginAttr := some "00:00:01:10".toList, endAttr := some "00:00:02.500".toList,
                 spans := [{ Sentence := "hello" }] }] }

/-- The value `Decode` gives for `exampleInput`. -/
def exampleTTML : TTML :=
  { Framerate := 25,
    Subtitles := [{ Begin := some ⟨1000000000, 10, 0⟩, End := some ⟨2500000000, 0, 0⟩,
                    Text := [{ Sentence := "hello" }] }] }

/-! ## Theorems -/

/-- C1: with zero items `WriteToTTML` returns `ErrNoSubtitlesToWrite` and
leaves the writer untouched; with at least one item it does not return
`ErrNoSubtitlesToWrite`, the XML encoder never producing that sentinel
itself. -/
theorem writeToTTML_empty_guard {W : Type} (Encode : TTML → W → W × Option Error)
    (hEncode : ∀ ttml w, (Encode ttml w).2 ≠ some Error.ErrNoSubtitlesToWrite)
    (s : Subtitles) (o : W) :
    (s.Items = [] → s.WriteToTTML Encode o = (o, some Error.ErrNoSubtitlesToWrite)) ∧
    (s.Items ≠ [] → (s.WriteToTTML Encode o).2 ≠ some Error.ErrNoSubtitlesToWrite) := by
  constructor
  · intro h
    simp [Subtitles.WriteToTTML, h]
  · intro h
    have hlen : s.Items.length ≠ 0 := by
      intro h0
      exact h (List.length_eq_zero.mp h0)
    simp only [Subtitles.WriteToTTML, hlen, if_false]
    exact hEncode _ _

/-- Witness of C1: an encoder that appends one byte and never fails, on an
empty container and on a container of one cue. -/
theorem writeToTTML_empty_guard_witness :
    ((⟨[]⟩ : Subtitles).WriteToTTML (fun _ (w : List Nat) => (w ++ [60], none)) [] =
        ([], some Error.ErrNoSubtitlesToWrite)) ∧
    ((⟨[{ EndAt := 2, StartAt := 1, Text := ["a"] }]⟩ : Subtitles).WriteToTTML
        (fun _ (w : List Nat) => (w ++ [60], none)) []).2 ≠ some Error.ErrNoSubtitlesToWrite :=
  ⟨(writeToTTML_empty_guard (fun _ (w : List Nat) => (w ++ [60], none))
      (fun _ _ => by simp) ⟨[]⟩ []).1 rfl,
   (writeToTTML_empty_guard (fun _ (w : List Nat) => (w ++ [60], none))
      (fun _ _ => by simp) ⟨[{ EndAt := 2, StartAt := 1, Text := ["a"] }]⟩ []).2 (by simp)⟩

/-- C2: with a frame rate that is absent, zero or negative, `Duration` returns
the base duration, whatever the frame count. -/
theorem duration_without_framerate (d frames framerate : Int) (h : framerate ≤ 0) :
    (TTMLDuration.mk d frames framerate).Duration = d := by
  have h0 : ¬ framerate > 0 := by omega
  simp [TTMLDuration.Duration, h0]

/-- Witness of C2: ten frames at frame rate zero leave one second unchanged. -/
theorem duration_without_framerate_witness :
    (0 : Int) ≤ 0 ∧ (TTMLDuration.mk 1000000000 10 0).Duration = 1000000000 :=
  ⟨le_refl 0, duration_without_framerate 1000000000 10 0 (le_refl 0)⟩


set_option maxRecDepth 100000

/-! ### binary64 rounding: the error bound -/

theorem ilog2Aux_spec (fuel : Nat) : ∀ n : Nat, n ≠ 0 → n ≤ fuel →
    2 ^ ilog2Aux fuel n ≤ n ∧ n < 2 ^ (ilog2Aux fuel n + 1) := by
  induction fuel with
  | zero => intro n h0 hle; omega
  | succ fuel ih =>
    intro n h0 hle
    unfold ilog2Aux
    by_cases h2 : n < 2
    · simp only [h2, if_true]
      constructor <;> simp <;> omega
    · simp only [h2, if_false]
      have hh := ih (n / 2) (by omega) (by omega)
      obtain ⟨h1, h3⟩ := hh
      constructor
      · rw [pow_succ]; omega
      · rw [pow_succ]; omega

theorem ilog2_spec (n : Nat) (h : n ≠ 0) : 2 ^ ilog2 n ≤ n ∧ n < 2 ^ (ilog2 n + 1) :=
  ilog2Aux_spec n n h (le_refl n)

theorem two_zpow_split (z : Int) :
    (2 : ℚ) ^ z = (2 : ℚ) ^ z.toNat / (2 : ℚ) ^ (-z).toNat := by
  rcases le_total 0 z with h | h
  · have h1 : (-z).toNat = 0 := by omega
    have h2 : (z.toNat : Int) = z := Int.toNat_of_nonneg h
    rw [h1, pow_zero, div_one, ← zpow_natCast, h2]
  · have h1 : z.toNat = 0 := by omega
    have h2 : ((-z).toNat : Int) = -z := Int.toNat_of_nonneg (by omega)
    rw [h1, pow_zero, one_div, ← zpow_natCast, h2, zpow_neg, inv_inv]

theorem roundHalfEven_error (N D : Nat) (hD : 0 < D) :
    |((roundHalfEven N D : Nat) : ℚ) - (N : ℚ) / D| ≤ 1 / 2 := by
  have hDq : (0 : ℚ) < D := by exact_mod_cast hD
  have hN : (N : ℚ) = D * (N / D : Nat) + (N % D : Nat) := by
    exact_mod_cast (Nat.div_add_mod N D).symm
  have hr : ((N % D : Nat) : ℚ) < D := by exact_mod_cast Nat.mod_lt N hD
  have hr0 : (0 : ℚ) ≤ ((N % D : Nat) : ℚ) := by positivity
  have hquot : (N : ℚ) / D = (N / D : Nat) + ((N % D : Nat) : ℚ) / D := by
    rw [eq_comm, ← sub_eq_zero]
    field_simp
    linarith
  unfold roundHalfEven
  simp only
  by_cases hc : D < 2 * (N % D) ∨ (2 * (N % D) = D ∧ N / D % 2 = 1)
  · rw [if_pos hc]
    have h2 : (D : ℚ) ≤ 2 * ((N % D : Nat) : ℚ) := by
      rcases hc with h | ⟨h, _⟩
      · exact_mod_cast h.le
      · exact_mod_cast h.symm.le
    have h3 : (1 : ℚ) / 2 ≤ ((N % D : Nat) : ℚ) / D := by
      rw [div_le_div_iff₀ (by norm_num) hDq]; linarith
    have h4 : ((N % D : Nat) : ℚ) / D ≤ 1 := by
      rw [div_le_one hDq]; exact hr.le
    rw [hquot, abs_le]
    push_cast
    constructor <;> linarith
  · rw [if_neg hc]
    have h2 : 2 * ((N % D : Nat) : ℚ) ≤ D := by
      have : ¬ D < 2 * (N % D) := fun h => hc (Or.inl h)
      exact_mod_cast not_lt.mp this
    have h3 : ((N % D : Nat) : ℚ) / D ≤ 1 / 2 := by
      rw [div_le_div_iff₀ hDq (by norm_num)]; linarith
    have h4 : (0 : ℚ) ≤ ((N % D : Nat) : ℚ) / D := by positivity
    rw [hquot, abs_le]
    constructor <;> linarith

theorem binaryExponent_le (n d : Nat) (hn : 0 < n) (hd : 0 < d) :
    (2 : ℚ) ^ binaryExponent n d ≤ (n : ℚ) / d := by
  have hdq : (0 : ℚ) < d := by exact_mod_cast hd
  unfold binaryExponent
  simp only
  split
  · rename_i h
    have hq : (d : ℚ) * 2 ^ ((ilog2 n : Int) - (ilog2 d : Int)).toNat
        ≤ n * 2 ^ (-((ilog2 n : Int) - (ilog2 d : Int))).toNat := by exact_mod_cast h
    rw [two_zpow_split, le_div_iff₀ hdq, div_mul_eq_mul_div, div_le_iff₀ (by positivity)]
    linarith
  · have h1 := (ilog2_spec n (by omega)).1
    have h2 := (ilog2_spec d (by omega)).2
    have h1q : (2 : ℚ) ^ (ilog2 n) ≤ n := by exact_mod_cast h1
    have h2q : (d : ℚ) ≤ 2 ^ (ilog2 d + 1) := by exact_mod_cast h2.le
    have he : (2 : ℚ) ^ ((ilog2 n : Int) - (ilog2 d : Int) - 1)
        = (2 : ℚ) ^ (ilog2 n) / 2 ^ (ilog2 d + 1) := by
      have : ((ilog2 n : Int) - (ilog2 d : Int) - 1) = (ilog2 n : Int) - ((ilog2 d + 1 : Nat) : Int) := by
        push_cast; ring
      rw [this, zpow_sub₀ (by norm_num), zpow_natCast, zpow_natCast]
    rw [he]
    exact div_le_div₀ (by positivity) h1q hdq h2q

/-- The exponent `binaryExponent` picks is the binary exponent of `n / d`: the
scaled quotient that `roundQuot` rounds lies in `[2 ^ 52, 2 ^ 53)`. -/
theorem binaryExponent_spec (n d : Nat) (hn : 0 < n) (hd : 0 < d) :
    (2 : ℚ) ^ binaryExponent n d ≤ (n : ℚ) / d
      ∧ (n : ℚ) / d < (2 : ℚ) ^ (binaryExponent n d + 1) := by
  refine ⟨binaryExponent_le n d hn hd, ?_⟩
  have hdq : (0 : ℚ) < d := by exact_mod_cast hd
  unfold binaryExponent
  simp only
  split
  · have h1 := (ilog2_spec n (by omega)).2
    have h2 := (ilog2_spec d (by omega)).1
    have h1q : (n : ℚ) < 2 ^ (ilog2 n + 1) := by exact_mod_cast h1
    have h2q : (2 : ℚ) ^ (ilog2 d) ≤ d := by exact_mod_cast h2
    have he : (2 : ℚ) ^ ((ilog2 n : Int) - (ilog2 d : Int) + 1)
        = (2 : ℚ) ^ (ilog2 n + 1) / 2 ^ (ilog2 d) := by
      have : ((ilog2 n : Int) - (ilog2 d : Int) + 1)
          = ((ilog2 n + 1 : Nat) : Int) - (ilog2 d : Int) := by
        push_cast; ring
      rw [this, zpow_sub₀ (by norm_num), zpow_natCast, zpow_natCast]
    rw [he, div_lt_div_iff hdq (by positivity)]
    calc (n : ℚ) * 2 ^ ilog2 d < 2 ^ (ilog2 n + 1) * 2 ^ ilog2 d := by
          exact mul_lt_mul_of_pos_right h1q (by positivity)
      _ ≤ 2 ^ (ilog2 n + 1) * d := by
          exact mul_le_mul_of_nonneg_left h2q (by positivity)
  · rename_i h
    have hq : (n : ℚ) * 2 ^ (-((ilog2 n : Int) - (ilog2 d : Int))).toNat
        < d * 2 ^ ((ilog2 n : Int) - (ilog2 d : Int)).toNat := by
      exact_mod_cast not_le.mp h
    rw [sub_add_cancel, two_zpow_split, div_lt_div_iff hdq (by positivity)]
    linarith

theorem roundQuot_error (n d : Nat) (hn : 0 < n) (hd : 0 < d) :
    |((roundQuot n d).1 : ℚ) * 2 ^ (roundQuot n d).2 - (n : ℚ) / d|
      ≤ (n : ℚ) / d * 2 ^ (-53 : Int) := by
  have hdq : (0 : ℚ) < d := by exact_mod_cast hd
  have hnq : (0 : ℚ) < n := by exact_mod_cast hn
  have hE := binaryExponent_le n d hn hd
  unfold roundQuot
  rw [if_neg (by omega)]
  simp only
  generalize binaryExponent n d = E at hE
  set s : Int := E - 52 with hs
  have hD : 0 < d * 2 ^ s.toNat := by positivity
  have hr := roundHalfEven_error (n * 2 ^ (-s).toNat) (d * 2 ^ s.toNat) hD
  have hpos : (0 : ℚ) < 2 ^ s := by positivity
  have hquot : (((n * 2 ^ (-s).toNat : Nat) : ℚ)) / ((d * 2 ^ s.toNat : Nat) : ℚ) * 2 ^ s
      = (n : ℚ) / d := by
    rw [two_zpow_split s]
    push_cast
    field_simp
    ring
  have hfac : ((roundHalfEven (n * 2 ^ (-s).toNat) (d * 2 ^ s.toNat) : Nat) : ℚ) * 2 ^ s
        - (n : ℚ) / d
      = (((roundHalfEven (n * 2 ^ (-s).toNat) (d * 2 ^ s.toNat) : Nat) : ℚ)
          - ((n * 2 ^ (-s).toNat : Nat) : ℚ) / ((d * 2 ^ s.toNat : Nat) : ℚ)) * 2 ^ s := by
    rw [sub_mul, hquot]
  rw [hfac, abs_mul, abs_of_pos hpos]
  have hE2 : (2 : ℚ) ^ E = 2 ^ s * 2 ^ (52 : Int) := by
    rw [← zpow_add₀ (by norm_num)]; congr 1; omega
  have h53 : (2 : ℚ) ^ (52 : Int) * 2 ^ (-53 : Int) = 1 / 2 := by
    rw [← zpow_add₀ (by norm_num)]; norm_num
  calc |((roundHalfEven (n * 2 ^ (-s).toNat) (d * 2 ^ s.toNat) : Nat) : ℚ)
          - ((n * 2 ^ (-s).toNat : Nat) : ℚ) / ((d * 2 ^ s.toNat : Nat) : ℚ)| * 2 ^ s
      ≤ 1 / 2 * 2 ^ s := by
        exact mul_le_mul_of_nonneg_right hr hpos.le
    _ = 2 ^ E * 2 ^ (-53 : Int) := by rw [hE2, mul_assoc, h53]; ring
    _ ≤ (n : ℚ) / d * 2 ^ (-53 : Int) := by
        exact mul_le_mul_of_nonneg_right hE (by positivity)

theorem roundQuot_error_nonneg (n d : Nat) (hd : 0 < d) :
    |((roundQuot n d).1 : ℚ) * 2 ^ (roundQuot n d).2 - (n : ℚ) / d|
      ≤ (n : ℚ) / d * 2 ^ (-53 : Int) := by
  rcases Nat.eq_zero_or_pos n with h | h
  · subst h
    simp [roundQuot]
  · exact roundQuot_error n d h hd

theorem binaryExponent_le_ilog2 (n d : Nat) :
    binaryExponent n d ≤ (ilog2 n : Int) - (ilog2 d : Int) := by
  unfold binaryExponent
  simp only
  split <;> omega

theorem roundHalfEven_one (N : Nat) : roundHalfEven N 1 = N := by
  simp [roundHalfEven, Nat.mod_one]

theorem ilog2_one : ilog2 1 = 0 := by decide

theorem roundQuot_exact (n : Nat) (h : n < 2 ^ 53) :
    ((roundQuot n 1).1 : ℚ) * 2 ^ (roundQuot n 1).2 = n := by
  rcases Nat.eq_zero_or_pos n with h0 | h0
  · subst h0
    simp [roundQuot]
  · have hlog := (ilog2_spec n (by omega)).1
    have hlt : ilog2 n < 53 := by
      by_contra hc
      have : 2 ^ 53 ≤ 2 ^ ilog2 n := Nat.pow_le_pow_right (by norm_num) (by omega)
      omega
    have hE := binaryExponent_le_ilog2 n 1
    rw [ilog2_one] at hE
    unfold roundQuot
    rw [if_neg (by omega)]
    simp only
    generalize binaryExponent n 1 = E at hE
    have hs : (E - 52).toNat = 0 := by omega
    rw [hs, pow_zero, mul_one, roundHalfEven_one, two_zpow_split (E - 52), hs]
    push_cast
    field_simp

theorem Float64.ofInt_val (i : Int) (h0 : 0 ≤ i) (h : i < 2 ^ 53) :
    (Float64.ofInt i).val = i ∧ 0 ≤ (Float64.ofInt i).m := by
  obtain ⟨n, rfl⟩ := Int.eq_ofNat_of_zero_le h0
  have hn : n < 2 ^ 53 := by exact_mod_cast h
  have hx := roundQuot_exact n hn
  rcases Nat.eq_zero_or_pos n with hz | hz
  · subst hz
    simp [Float64.ofInt, Float64.val, roundQuot]
  · have hsign : Int.sign (n : Int) = 1 := Int.sign_eq_one_of_pos (by exact_mod_cast hz)
    constructor
    · simp only [Float64.ofInt, Float64.val, Int.natAbs_ofNat, hsign, one_mul]
      exact_mod_cast hx
    · simp only [Float64.ofInt, Int.natAbs_ofNat, hsign, one_mul]
      positivity

theorem Float64.val_pos_iff (x : Float64) : 0 < x.val ↔ 0 < x.m := by
  unfold Float64.val
  have h2 : (0 : ℚ) < 2 ^ x.e := by positivity
  constructor
  · intro h
    have := (mul_pos_iff_of_pos_right h2).mp h
    exact_mod_cast this
  · intro h
    have hm : (0 : ℚ) < x.m := by exact_mod_cast h
    exact mul_pos hm h2

theorem Float64.div_error (a b : Float64) (ha : 0 ≤ a.m) (hb : 0 < b.m) :
    |(Float64.div a b).val - a.val / b.val| ≤ a.val / b.val * 2 ^ (-53 : Int)
      ∧ 0 ≤ (Float64.div a b).m := by
  obtain ⟨n, hn⟩ := Int.eq_ofNat_of_zero_le ha
  obtain ⟨d, hd⟩ := Int.eq_ofNat_of_zero_le hb.le
  have hdpos : 0 < d := by omega
  have herr := roundQuot_error_nonneg n d hdpos
  have hsb : Int.sign b.m = 1 := Int.sign_eq_one_of_pos hb
  have hquot : a.val / b.val = (n : ℚ) / d * 2 ^ (a.e - b.e) := by
    unfold Float64.val
    rw [hn, hd, zpow_sub₀ (by norm_num)]
    have h1 : (0 : ℚ) < 2 ^ b.e := by positivity
    have h2 : (0 : ℚ) < d := by exact_mod_cast hdpos
    push_cast
    field_simp
  have hp : (0 : ℚ) < 2 ^ (a.e - b.e) := by positivity
  rcases Nat.eq_zero_or_pos n with hz | hz
  · subst hz
    have hm : a.m = 0 := by simpa using hn
    simp [Float64.div, Float64.val, hm, roundQuot]
  · have hsa : Int.sign a.m = 1 := Int.sign_eq_one_of_pos (by omega)
    have hval : (Float64.div a b).val
        = ((roundQuot n d).1 : ℚ) * 2 ^ (roundQuot n d).2 * 2 ^ (a.e - b.e) := by
      have hsn : Int.sign (n : Int) = 1 := Int.sign_eq_one_of_pos (by omega)
      have hsd : Int.sign (d : Int) = 1 := Int.sign_eq_one_of_pos (by omega)
      simp only [Float64.div, Float64.val, hn, hd, hsn, hsd, one_mul, Int.natAbs_ofNat]
      rw [add_sub_assoc, zpow_add₀ (by norm_num)]
      push_cast
      ring
    constructor
    · rw [hval, hquot, ← sub_mul, abs_mul, abs_of_pos hp]
      calc |((roundQuot n d).1 : ℚ) * 2 ^ (roundQuot n d).2 - (n : ℚ) / d| * 2 ^ (a.e - b.e)
          ≤ ((n : ℚ) / d * 2 ^ (-53 : Int)) * 2 ^ (a.e - b.e) :=
            mul_le_mul_of_nonneg_right herr hp.le
        _ = (n : ℚ) / d * 2 ^ (a.e - b.e) * 2 ^ (-53 : Int) := by ring
    · simp only [Float64.div, hsa, hsb, one_mul]
      positivity

theorem Float64.mul_error (a b : Float64) (ha : 0 ≤ a.m) (hb : 0 ≤ b.m) :
    |(Float64.mul a b).val - a.val * b.val| ≤ a.val * b.val * 2 ^ (-53 : Int)
      ∧ 0 ≤ (Float64.mul a b).m := by
  have hab : 0 ≤ a.m * b.m := mul_nonneg ha hb
  obtain ⟨n, hn⟩ := Int.eq_ofNat_of_zero_le hab
  have herr := roundQuot_error_nonneg n 1 (by norm_num)
  have hprod : a.val * b.val = (n : ℚ) / (1 : Nat) * 2 ^ (a.e + b.e) := by
    unfold Float64.val
    rw [zpow_add₀ (by norm_num)]
    have : ((a.m * b.m : Int) : ℚ) = (n : ℚ) := by rw [hn]; simp
    push_cast at this
    simp only [Nat.cast_one, div_one]
    rw [← this]
    ring
  have hp : (0 : ℚ) < 2 ^ (a.e + b.e) := by positivity
  rcases Nat.eq_zero_or_pos n with hz | hz
  · subst hz
    have hm : a.m * b.m = 0 := by simpa using hn
    have hv : a.val * b.val = 0 := by rw [hprod]; simp
    rw [hv]
    simp [Float64.mul, Float64.val, hm, roundQuot]
  · have hs : Int.sign (a.m * b.m) = 1 := Int.sign_eq_one_of_pos (by omega)
    have hval : (Float64.mul a b).val
        = ((roundQuot n 1).1 : ℚ) * 2 ^ (roundQuot n 1).2 * 2 ^ (a.e + b.e) := by
      have hsn : Int.sign (n : Int) = 1 := Int.sign_eq_one_of_pos (by omega)
      simp only [Float64.mul, Float64.val, hn, hsn, one_mul, Int.natAbs_ofNat]
      rw [add_assoc, zpow_add₀ (by norm_num)]
      push_cast
      ring
    constructor
    · rw [hval, hprod, ← sub_mul, abs_mul, abs_of_pos hp]
      calc |((roundQuot n 1).1 : ℚ) * 2 ^ (roundQuot n 1).2 - (n : ℚ) / (1 : Nat)| * 2 ^ (a.e + b.e)
          ≤ ((n : ℚ) / (1 : Nat) * 2 ^ (-53 : Int)) * 2 ^ (a.e + b.e) :=
            mul_le_mul_of_nonneg_right herr hp.le
        _ = (n : ℚ) / (1 : Nat) * 2 ^ (a.e + b.e) * 2 ^ (-53 : Int) := by ring
    · simp only [Float64.mul, hs, one_mul]
      positivity

theorem wrapInt64_of_inInt64 (x : Int) (h : inInt64 x) : wrapInt64 x = x := by
  unfold inInt64 at h
  unfold wrapInt64
  omega

theorem Float64.trunc_bounds (x : Float64) (hm : 0 ≤ x.m) :
    0 ≤ x.trunc ∧ (x.trunc : ℚ) ≤ x.val ∧ x.val < (x.trunc : ℚ) + 1 := by
  unfold Float64.trunc Float64.val
  by_cases he : 0 ≤ x.e
  · rw [if_pos he]
    have h1 : (2 : ℚ) ^ x.e = 2 ^ x.e.toNat := by
      rw [← zpow_natCast, Int.toNat_of_nonneg he]
    refine ⟨by positivity, ?_, ?_⟩
    · rw [h1]; push_cast; exact le_refl _
    · rw [h1]; push_cast; linarith
  · rw [if_neg he]
    have hk : (0 : Int) < 2 ^ (-x.e).toNat := by positivity
    have hkq : (0 : ℚ) < 2 ^ (-x.e).toNat := by positivity
    rw [Int.tdiv_eq_ediv hm hk.le]
    have h1 : (2 : ℚ) ^ x.e = 1 / 2 ^ (-x.e).toNat := by
      rw [two_zpow_split]
      have : x.e.toNat = 0 := by omega
      rw [this, pow_zero]
    have hlo : x.m / 2 ^ (-x.e).toNat * 2 ^ (-x.e).toNat ≤ x.m := Int.ediv_mul_le _ hk.ne'
    have hhi : x.m < (x.m / 2 ^ (-x.e).toNat + 1) * 2 ^ (-x.e).toNat :=
      Int.lt_ediv_add_one_mul_self _ hk
    have hloq : ((x.m / 2 ^ (-x.e).toNat : Int) : ℚ) * 2 ^ (-x.e).toNat ≤ x.m := by
      exact_mod_cast hlo
    have hhiq : (x.m : ℚ) < (((x.m / 2 ^ (-x.e).toNat : Int) : ℚ) + 1) * 2 ^ (-x.e).toNat := by
      exact_mod_cast hhi
    refine ⟨Int.ediv_nonneg hm hk.le, ?_, ?_⟩
    · rw [h1, mul_one_div, le_div_iff₀ hkq]; exact hloq
    · rw [h1, mul_one_div, div_lt_iff₀ hkq]; exact hhiq

theorem frameNanos_bounds (fff r : Int) (hf : 0 ≤ fff) (hf53 : fff < 2 ^ 53)
    (hr : 0 < r) (hr53 : r < 2 ^ 53) (hq : fff * 10 ^ 9 < r * 2 ^ 51) :
    0 ≤ frameNanos fff r ∧ fff * 10 ^ 9 / r - 1 ≤ frameNanos fff r
      ∧ frameNanos fff r ≤ fff * 10 ^ 9 / r + 1 := by
  obtain ⟨hfv, hfm⟩ := Float64.ofInt_val fff hf hf53
  obtain ⟨hrv, hrm0⟩ := Float64.ofInt_val r hr.le hr53
  have hrq : (0 : ℚ) < r := by exact_mod_cast hr
  have hfq : (0 : ℚ) ≤ fff := by exact_mod_cast hf
  have hrm : 0 < (Float64.ofInt r).m := by
    rw [← Float64.val_pos_iff, hrv]; exact hrq
  obtain ⟨hdiv, hdm⟩ := Float64.div_error _ _ hfm hrm
  rw [hfv, hrv] at hdiv
  have hbm : (0 : Int) ≤ Float64.billion.m := by decide
  obtain ⟨hmul, hmm⟩ := Float64.mul_error _ Float64.billion hdm hbm
  have hbv : Float64.billion.val = 1000000000 := by
    simp [Float64.billion, Float64.val]
  rw [hbv] at hmul
  obtain ⟨ht0, htlo, hthi⟩ := Float64.trunc_bounds _ hmm
  set y := (Float64.div (Float64.ofInt fff) (Float64.ofInt r)).val with hy
  set z := (Float64.mul (Float64.div (Float64.ofInt fff) (Float64.ofInt r)) Float64.billion).val
    with hz
  set t := (Float64.mul (Float64.div (Float64.ofInt fff) (Float64.ofInt r)) Float64.billion).trunc
    with ht
  -- the exact quotient, in nanoseconds
  set X : ℚ := (fff : ℚ) * 10 ^ 9 / r with hX
  have hX0 : 0 ≤ X := by positivity
  have hXlt : X < 2 ^ 51 := by
    rw [hX, div_lt_iff₀ hrq]
    have : ((fff * 10 ^ 9 : Int) : ℚ) < ((r * 2 ^ 51 : Int) : ℚ) := by exact_mod_cast hq
    push_cast at this
    linarith
  have hu : (2 : ℚ) ^ (-53 : Int) = 1 / 9007199254740992 := by
    rw [zpow_neg]; norm_num
  rw [hu] at hdiv hmul
  have hxy : (fff : ℚ) / r * 1000000000 = X := by rw [hX]; ring
  rw [abs_le] at hdiv hmul
  have hy0 : 0 ≤ y := by
    have : 0 ≤ (fff : ℚ) / r := by positivity
    nlinarith [hdiv.1]
  -- bounds on the product in terms of the exact quotient
  have hzX : |z - X| < 1 := by
    rw [abs_lt]
    have hy1 : y * 1000000000 ≤ X + X * (1 / 9007199254740992) := by
      rw [← hxy]; nlinarith [hdiv.2]
    have hy2 : X - X * (1 / 9007199254740992) ≤ y * 1000000000 := by
      rw [← hxy]; nlinarith [hdiv.1]
    constructor <;> nlinarith [hmul.1, hmul.2]
  rw [abs_lt] at hzX
  -- the integer quotient
  have hfloor1 : ((fff * 10 ^ 9 / r : Int) : ℚ) ≤ X := by
    rw [hX, le_div_iff₀ hrq]
    have := Int.ediv_mul_le (fff * 10 ^ 9) hr.ne'
    exact_mod_cast this
  have hfloor2 : X < ((fff * 10 ^ 9 / r : Int) : ℚ) + 1 := by
    rw [hX, div_lt_iff₀ hrq]
    have := Int.lt_ediv_add_one_mul_self (fff * 10 ^ 9) hr
    exact_mod_cast this
  have hq51 : fff * 10 ^ 9 / r < 2 ^ 51 := by
    apply Int.ediv_lt_of_lt_mul hr
    linarith
  have hlo : fff * 10 ^ 9 / r - 1 ≤ t := by
    have : ((fff * 10 ^ 9 / r : Int) : ℚ) - 2 < (t : ℚ) := by linarith
    have h2 : ((fff * 10 ^ 9 / r - 2 : Int) : ℚ) < (t : ℚ) := by push_cast; linarith
    have h3 : fff * 10 ^ 9 / r - 2 < t := by exact_mod_cast h2
    omega
  have hhi : t ≤ fff * 10 ^ 9 / r + 1 := by
    have : (t : ℚ) < ((fff * 10 ^ 9 / r : Int) : ℚ) + 2 := by linarith
    have h2 : (t : ℚ) < ((fff * 10 ^ 9 / r + 2 : Int) : ℚ) := by push_cast; linarith
    have h3 : t < fff * 10 ^ 9 / r + 2 := by exact_mod_cast h2
    omega
  have hin : inInt64 t := by
    unfold inInt64
    constructor <;> omega
  have hfn : frameNanos fff r = t := by
    unfold frameNanos Float64.toInt64
    rw [if_pos hin]
  rw [hfn]
  exact ⟨ht0, hlo, hhi⟩

/-- C3, as stated, fails: 41 frames at 80 frames per second are exactly
512500000 ns, and `Duration` adds 512499999 ns; and on the largest base
duration the sum wraps around. -/
theorem duration_with_framerate_not_exact :
    (TTMLDuration.mk 0 41 80).Duration = 512499999
    ∧ (41 : Int) * 10 ^ 9 = 80 * 512500000
    ∧ (TTMLDuration.mk 0 41 80).Duration ≠ 0 + 41 * 10 ^ 9 / 80
    ∧ (TTMLDuration.mk 9223372036854775807 10 25).Duration = -9223372036454775809 := by
  decide

/-- C3, amended: for a frame count and a frame rate below `2 ^ 53`, a frame
offset `fff / r` below `2 ^ 51` ns and a sum within `int64`, `Duration` returns
the base duration plus the quotient `fff * 10 ^ 9 / r` in whole nanoseconds, up
to one nanosecond either way. -/
theorem duration_with_framerate (d fff r : Int) (hf : 0 ≤ fff) (hf53 : fff < 2 ^ 53)
    (hr : 0 < r) (hr53 : r < 2 ^ 53) (hq : fff * 10 ^ 9 < r * 2 ^ 51)
    (hd : inInt64 d) (hsum : d + fff * 10 ^ 9 / r + 1 < 2 ^ 63) :
    |(TTMLDuration.mk d fff r).Duration - (d + fff * 10 ^ 9 / r)| ≤ 1 := by
  obtain ⟨h0, hlo, hhi⟩ := frameNanos_bounds fff r hf hf53 hr hr53 hq
  have hq0 : 0 ≤ fff * 10 ^ 9 / r := Int.ediv_nonneg (by positivity) hr.le
  have hq51 : fff * 10 ^ 9 / r < 2 ^ 51 := Int.ediv_lt_of_lt_mul hr (by linarith)
  unfold inInt64 at hd
  have hin1 : inInt64 (frameNanos fff r * 1) := by
    unfold inInt64; constructor <;> omega
  have hin2 : inInt64 (d + frameNanos fff r * 1) := by
    unfold inInt64; constructor <;> omega
  have hdur : (TTMLDuration.mk d fff r).Duration = d + frameNanos fff r := by
    simp only [TTMLDuration.Duration, gt_iff_lt, hr, if_true]
    rw [wrapInt64_of_inInt64 _ hin1, wrapInt64_of_inInt64 _ hin2, mul_one]
  rw [hdur, abs_le]
  constructor <;> omega

/-- Witness of C3: ten frames at 25 frames per second add exactly
400000000 ns to one second. -/
theorem duration_with_framerate_witness :
    |(TTMLDuration.mk 1000000000 10 25).Duration - (1000000000 + 10 * 10 ^ 9 / 25)| ≤ 1
      ∧ (TTMLDuration.mk 1000000000 10 25).Duration = 1000000000 + 400000000 :=
  ⟨duration_with_framerate 1000000000 10 25 (by decide) (by decide) (by decide) (by decide)
      (by decide) (by decide) (by decide), by decide⟩


/-! ### The frame suffix and `Atoi` -/

theorem isDigit_ne_colon (c : Char) (h : isDigit c = true) : c ≠ ':' := by
  rintro rfl
  revert h
  decide

theorem isDigit_ne_sign (c : Char) (h : isDigit c = true) : c ≠ '-' ∧ c ≠ '+' := by
  constructor <;> (rintro rfl; revert h; decide)

theorem all_isDigit_append_colon (p ds : Text) : (p ++ ':' :: ds).all isDigit = false := by
  rw [List.all_eq_false]
  exact ⟨':', by simp, by decide⟩

theorem findFramesFrom_suffix (p ds : Text) (hne : ds ≠ []) (hdig : ds.all isDigit = true) :
    ∀ pos : Nat, findFramesFrom (p ++ ':' :: ds) pos
      = some (pos + p.length, pos + p.length + (ds.length + 1)) := by
  induction p with
  | nil =>
    intro pos
    have he : ds.isEmpty = false := by
      cases ds with
      | nil => exact absurd rfl hne
      | cons c cs => rfl
    simp [findFramesFrom, matchFramesHere, he, hdig]
  | cons a p ih =>
    intro pos
    have hm : matchFramesHere (a :: (p ++ ':' :: ds)) = false := by
      simp only [matchFramesHere, all_isDigit_append_colon, Bool.and_false]
    show (if matchFramesHere (a :: (p ++ ':' :: ds)) = true then _
      else findFramesFrom (p ++ ':' :: ds) (pos + 1)) = _
    rw [hm, if_neg (by simp), ih, List.length_cons]
    have e1 : pos + 1 + p.length = pos + (p.length + 1) := by omega
    rw [e1]

theorem FindStringIndex_suffix (p ds : Text) (hne : ds ≠ []) (hdig : ds.all isDigit = true) :
    FindStringIndex (p ++ ':' :: ds) = some (p.length, p.length + (ds.length + 1)) := by
  unfold FindStringIndex
  rw [findFramesFrom_suffix p ds hne hdig 0]
  simp

/-- The base-10 value of a run of digits as a sum of powers of ten. -/
theorem digitsValue_eq_ofDigits (ds : Text) :
    digitsValue ds = Nat.ofDigits 10 (ds.reverse.map (fun c => c.toNat - 48)) := by
  induction ds using List.reverseRecOn with
  | nil => rfl
  | append_singleton ds c ih =>
    unfold digitsValue at ih ⊢
    rw [List.foldl_append, List.reverse_append]
    simp only [List.foldl_cons, List.foldl_nil, List.reverse_cons, List.reverse_nil,
      List.nil_append, List.singleton_append, List.map_cons, Nat.ofDigits_cons]
    rw [ih]
    exact Nat.add_comm _ _

theorem Atoi_digits (ds : Text) (hne : ds ≠ []) (hdig : ds.all isDigit = true)
    (hfit : digitsValue ds < 2 ^ 63) : Atoi ds = ((digitsValue ds : Int), none) := by
  obtain ⟨c, cs, rfl⟩ := List.exists_cons_of_ne_nil hne
  have hc : isDigit c = true := by
    simp only [List.all_cons, Bool.and_eq_true] at hdig
    exact hdig.1
  obtain ⟨h1, h2⟩ := isDigit_ne_sign c hc
  have hfit' : digitsValue (c :: cs) < 9223372036854775808 := by
    have : (2 : Nat) ^ 63 = 9223372036854775808 := by norm_num
    omega
  simp [Atoi, h1, h2, hdig, hfit']

/-- C4: on a text `p ++ ":" ++ ds`, with `ds` a non-empty run of ASCII digits
whose base-10 value fits a 64-bit `int`, `UnmarshalText` sets the frame count
to that value and the base duration to what `parseDuration` gives for
`p ++ ".000"`, and it returns the error of that parse: it succeeds exactly
when the parse of the base time succeeds. -/
theorem unmarshalText_frame_suffix (parse : Text → Char → Int × Option Error)
    (t : TTMLDuration) (p ds : Text) (hne : ds ≠ []) (hdig : ∀ c ∈ ds, isDigit c = true)
    (hfit : Nat.ofDigits 10 (ds.reverse.map (fun c => c.toNat - 48)) < 2 ^ 63) :
    TTMLDuration.UnmarshalText parse t (p ++ ':' :: ds)
      = ({ d := (parse (p ++ ".000".toList) '.').1,
           frames := (Nat.ofDigits 10 (ds.reverse.map (fun c => c.toNat - 48)) : Nat),
           framerate := t.framerate },
         (parse (p ++ ".000".toList) '.').2) := by
  have hall : ds.all isDigit = true := List.all_eq_true.mpr hdig
  rw [← digitsValue_eq_ofDigits] at hfit ⊢
  have htake : (p ++ ':' :: ds).take (p.length + (ds.length + 1)) = p ++ ':' :: ds := by
    apply List.take_of_length_le
    simp
  have hdrop : (p ++ ':' :: ds).drop (p.length + 1) = ds := by
    rw [List.drop_append_eq_append_drop]
    simp
  have hp : (p ++ ':' :: ds).take p.length = p := by
    rw [List.take_append_eq_append_take]
    simp
  unfold TTMLDuration.UnmarshalText
  simp only [FindStringIndex_suffix p ds hne hall, htake, hdrop, hp,
    Atoi_digits ds hne hall hfit]

/-- Witness of C4: `00:00:01:10` is parsed as `00:00:01.000` with ten frames. -/
theorem unmarshalText_frame_suffix_witness :
    TTMLDuration.UnmarshalText parseDuration ⟨0, 0, 0⟩ "00:00:01:10".toList
      = (⟨1000000000, 10, 0⟩, none) :=
  unmarshalText_frame_suffix parseDuration ⟨0, 0, 0⟩ "00:00:01".toList "10".toList
    (by decide) (by decide) (by decide)

theorem findFramesFrom_some (text : Text) : ∀ (pos a b : Nat),
    findFramesFrom text pos = some (a, b) →
    ∃ p ds, text = p ++ ':' :: ds ∧ ds ≠ [] ∧ ds.all isDigit = true
      ∧ a = pos + p.length ∧ b = pos + text.length := by
  induction text with
  | nil => intro pos a b h; simp [findFramesFrom] at h
  | cons c cs ih =>
    intro pos a b h
    unfold findFramesFrom at h
    by_cases hm : matchFramesHere (c :: cs) = true
    · rw [if_pos hm] at h
      simp only [Option.some.injEq, Prod.mk.injEq] at h
      simp only [matchFramesHere, Bool.and_eq_true, decide_eq_true_eq, Bool.not_eq_true'] at hm
      obtain ⟨⟨hc, he⟩, hd⟩ := hm
      refine ⟨[], cs, by simp [hc], ?_, hd, by simp [h.1], h.2.symm⟩
      intro hnil
      simp [hnil] at he
    · rw [if_neg hm] at h
      obtain ⟨p, ds, ht, hne, hd, ha, hb⟩ := ih (pos + 1) a b h
      refine ⟨c :: p, ds, by simp [ht], hne, hd, ?_, ?_⟩
      · simp only [List.length_cons]; omega
      · simp only [List.length_cons]; omega

theorem FindStringIndex_none (i : Text)
    (h : ¬ ∃ p ds, i = p ++ ':' :: ds ∧ ds ≠ [] ∧ ∀ c ∈ ds, isDigit c = true) :
    FindStringIndex i = none := by
  cases hf : FindStringIndex i with
  | none => rfl
  | some ab =>
    exfalso
    obtain ⟨a, b⟩ := ab
    obtain ⟨p, ds, ht, hne, hd, _, _⟩ := findFramesFrom_some i 0 a b hf
    exact h ⟨p, ds, ht, hne, List.all_eq_true.mp hd⟩

theorem Atoi_digits_overflow (ds : Text) (hne : ds ≠ []) (hdig : ds.all isDigit = true)
    (hfit : ¬ digitsValue ds < 2 ^ 63) : (Atoi ds).2 = some (Error.atoiRange ds) := by
  obtain ⟨c, cs, rfl⟩ := List.exists_cons_of_ne_nil hne
  have hc : isDigit c = true := by
    simp only [List.all_cons, Bool.and_eq_true] at hdig
    exact hdig.1
  obtain ⟨h1, h2⟩ := isDigit_ne_sign c hc
  have hfit' : ¬ digitsValue (c :: cs) < 9223372036854775808 := by
    have : (2 : Nat) ^ 63 = 9223372036854775808 := by norm_num
    omega
  simp [Atoi, h1, h2, hdig, hfit']

/-- What `UnmarshalText` does on a text with a frame suffix, whether the frame
count fits an `int` or not. -/
theorem unmarshalText_suffix_cases (parse : Text → Char → Int × Option Error)
    (t : TTMLDuration) (p ds : Text) (hne : ds ≠ []) (hdig : ∀ c ∈ ds, isDigit c = true) :
    (digitsValue ds < 2 ^ 63 ∧ TTMLDuration.UnmarshalText parse t (p ++ ':' :: ds)
        = ({ d := (parse (p ++ ".000".toList) '.').1, frames := (digitsValue ds : Nat),
             framerate := t.framerate }, (parse (p ++ ".000".toList) '.').2))
    ∨ (¬ digitsValue ds < 2 ^ 63 ∧ (TTMLDuration.UnmarshalText parse t (p ++ ':' :: ds)).2
        = some (Error.atoiFailed (Error.atoiRange ds) ds)
      ∧ (TTMLDuration.UnmarshalText parse t (p ++ ':' :: ds)).1.d = t.d) := by
  have hall : ds.all isDigit = true := List.all_eq_true.mpr hdig
  have htake : (p ++ ':' :: ds).take (p.length + (ds.length + 1)) = p ++ ':' :: ds := by
    apply List.take_of_length_le
    simp
  have hdrop : (p ++ ':' :: ds).drop (p.length + 1) = ds := by
    rw [List.drop_append_eq_append_drop]
    simp
  have hp : (p ++ ':' :: ds).take p.length = p := by
    rw [List.take_append_eq_append_take]
    simp
  by_cases hfit : digitsValue ds < 2 ^ 63
  · left
    refine ⟨hfit, ?_⟩
    unfold TTMLDuration.UnmarshalText
    simp only [FindStringIndex_suffix p ds hne hall, htake, hdrop, hp,
      Atoi_digits ds hne hall hfit]
  · right
    have hA := Atoi_digits_overflow ds hne hall hfit
    refine ⟨hfit, ?_, ?_⟩
    · unfold TTMLDuration.UnmarshalText
      simp only [FindStringIndex_suffix p ds hne hall, htake, hdrop, hA]
    · unfold TTMLDuration.UnmarshalText
      simp only [FindStringIndex_suffix p ds hne hall, htake, hdrop, hA]

/-- C5, as stated, fails: on a receiver that already holds five frames at 25
frames per second, the plain text `00:00:01.000` is unmarshalled with success
and leaves five frames and the frame rate 25 in place. -/
theorem unmarshalText_keeps_prior_content :
    (TTMLDuration.UnmarshalText parseDuration ⟨0, 5, 25⟩ "00:00:01.000".toList).2 = none
      ∧ FindStringIndex "00:00:01.000".toList = none
      ∧ (TTMLDuration.UnmarshalText parseDuration ⟨0, 5, 25⟩ "00:00:01.000".toList).1.frames ≠ 0
      ∧ (TTMLDuration.UnmarshalText parseDuration ⟨0, 5, 25⟩ "00:00:01.000".toList).1.framerate
          ≠ 0 := by
  decide

/-- C5, amended: after a successful `UnmarshalText` the frame rate is the one
the receiver had (0, absent, on a fresh receiver), and the frame count is the
captured integer when the text ends in `:<digits>` and the one the receiver
had (0 on a fresh receiver) when it does not. -/
theorem unmarshalText_frames_and_framerate (parse : Text → Char → Int × Option Error)
    (t : TTMLDuration) (i : Text) (hok : (TTMLDuration.UnmarshalText parse t i).2 = none) :
    (TTMLDuration.UnmarshalText parse t i).1.framerate = t.framerate
    ∧ (∀ p ds, i = p ++ ':' :: ds → ds ≠ [] → (∀ c ∈ ds, isDigit c = true) →
        (TTMLDuration.UnmarshalText parse t i).1.frames
          = (Nat.ofDigits 10 (ds.reverse.map (fun c => c.toNat - 48)) : Nat))
    ∧ ((¬ ∃ p ds, i = p ++ ':' :: ds ∧ ds ≠ [] ∧ ∀ c ∈ ds, isDigit c = true) →
        (TTMLDuration.UnmarshalText parse t i).1.frames = t.frames) := by
  have hsuffix : ∀ p ds, i = p ++ ':' :: ds → ds ≠ [] → (∀ c ∈ ds, isDigit c = true) →
      (TTMLDuration.UnmarshalText parse t i).1.frames = (digitsValue ds : Nat)
        ∧ (TTMLDuration.UnmarshalText parse t i).1.framerate = t.framerate := by
    intro p ds hi hne hdig
    subst hi
    rcases unmarshalText_suffix_cases parse t p ds hne hdig with ⟨_, h⟩ | ⟨_, h, _⟩
    · rw [h]; exact ⟨rfl, rfl⟩
    · rw [h] at hok; exact absurd hok (by simp)
  have hplain : (¬ ∃ p ds, i = p ++ ':' :: ds ∧ ds ≠ [] ∧ ∀ c ∈ ds, isDigit c = true) →
      (TTMLDuration.UnmarshalText parse t i).1.frames = t.frames
        ∧ (TTMLDuration.UnmarshalText parse t i).1.framerate = t.framerate := by
    intro h
    simp [TTMLDuration.UnmarshalText, FindStringIndex_none i h]
  refine ⟨?_, ?_, fun h => (hplain h).1⟩
  · by_cases h : ∃ p ds, i = p ++ ':' :: ds ∧ ds ≠ [] ∧ ∀ c ∈ ds, isDigit c = true
    · obtain ⟨p, ds, hi, hne, hdig⟩ := h
      exact (hsuffix p ds hi hne hdig).2
    · exact (hplain h).2
  · intro p ds hi hne hdig
    rw [← digitsValue_eq_ofDigits]
    exact (hsuffix p ds hi hne hdig).1

/-- Witness of C5: on a fresh receiver `00:00:02.500` gives no frames and no
frame rate. -/
theorem unmarshalText_frames_and_framerate_witness :
    (TTMLDuration.UnmarshalText parseDuration ⟨0, 0, 0⟩ "00:00:02.500".toList).2 = none
    ∧ (TTMLDuration.UnmarshalText parseDuration ⟨0, 0, 0⟩ "00:00:02.500".toList).1.framerate = 0 :=
  ⟨by decide,
   (unmarshalText_frames_and_framerate parseDuration ⟨0, 0, 0⟩ "00:00:02.500".toList
      (by decide)).1⟩


/-! ### Decimal rendering -/

theorem itoaAux_append (fuel : Nat) : ∀ (n : Nat) (acc : Text),
    itoaAux fuel n acc = itoaAux fuel n [] ++ acc := by
  induction fuel with
  | zero => intro n acc; simp [itoaAux]
  | succ fuel ih =>
    intro n acc
    unfold itoaAux
    by_cases h : n < 10
    · simp [h]
    · simp only [h, if_false]
      rw [ih (n / 10) (digitChar (n % 10) :: acc), ih (n / 10) [digitChar (n % 10)]]
      simp

theorem itoaAux_fuel (f1 : Nat) : ∀ (f2 n : Nat) (acc : Text), n < f1 → n < f2 →
    itoaAux f1 n acc = itoaAux f2 n acc := by
  induction f1 with
  | zero => intro f2 n acc h; omega
  | succ f1 ih =>
    intro f2 n acc h1 h2
    obtain ⟨f2, rfl⟩ : ∃ k, f2 = k + 1 := ⟨f2 - 1, by omega⟩
    unfold itoaAux
    by_cases h : n < 10
    · simp [h]
    · simp only [h, if_false]
      exact ih f2 (n / 10) _ (by omega) (by omega)

theorem Itoa_small (n : Nat) (h : n < 10) : Itoa n = [digitChar n] := by
  simp [Itoa, itoaAux, h]

theorem Itoa_large (n : Nat) (h : ¬ n < 10) :
    Itoa n = Itoa (n / 10) ++ [digitChar (n % 10)] := by
  unfold Itoa
  rw [itoaAux]
  simp only [h, if_false]
  rw [itoaAux_append, itoaAux_fuel n (n / 10 + 1) (n / 10) [] (by omega) (by omega)]

theorem digitChar_toNat (k : Nat) (h : k < 10) : (digitChar k).toNat - 48 = k := by
  interval_cases k <;> rfl

theorem digitChar_isDigit (k : Nat) (h : k < 10) : isDigit (digitChar k) = true := by
  interval_cases k <;> rfl

theorem digitsValue_append_singleton (ds : Text) (c : Char) :
    digitsValue (ds ++ [c]) = 10 * digitsValue ds + (c.toNat - 48) := by
  simp [digitsValue, List.foldl_append]

theorem Itoa_spec (n : Nat) :
    digitsValue (Itoa n) = n ∧ (Itoa n).all isDigit = true ∧ Itoa n ≠ []
      ∧ (10 ≤ n → 2 ≤ (Itoa n).length) ∧ (n < 10 → (Itoa n).length = 1)
      ∧ (n < 100 → (Itoa n).length ≤ 2) := by
  induction n using Nat.strong_induction_on with
  | _ n ih =>
    by_cases h : n < 10
    · rw [Itoa_small n h]
      refine ⟨?_, ?_, by simp, by omega, by simp, by simp⟩
      · simp [digitsValue, digitChar_toNat n h]
      · simp [digitChar_isDigit n h]
    · rw [Itoa_large n h]
      obtain ⟨h1, h2, h3, _, h5, _⟩ := ih (n / 10) (by omega)
      have hlen : 1 ≤ (Itoa (n / 10)).length := by
        cases hI : Itoa (n / 10) with
        | nil => exact absurd hI h3
        | cons a b => simp
      refine ⟨?_, ?_, by simp, ?_, by omega, ?_⟩
      · rw [digitsValue_append_singleton, h1, digitChar_toNat _ (Nat.mod_lt _ (by norm_num))]
        omega
      · simp [h2, digitChar_isDigit _ (Nat.mod_lt n (by norm_num : 10 > 0))]
      · intro _; simp only [List.length_append, List.length_singleton]; omega
      · intro h100
        have := h5 (by omega)
        simp only [List.length_append, List.length_singleton]; omega

theorem pad2_spec (n : Nat) :
    digitsValue (pad2 n) = n ∧ (pad2 n).all isDigit = true ∧ 2 ≤ (pad2 n).length
      ∧ (n < 100 → (pad2 n).length = 2) := by
  obtain ⟨h1, h2, h3, h4, h5, h6⟩ := Itoa_spec n
  unfold pad2
  by_cases h : n < 10
  · simp only [h, if_true]
    refine ⟨?_, ?_, ?_, ?_⟩
    · have : digitsValue ('0' :: Itoa n) = digitsValue (Itoa n) := by
        simp [digitsValue]
      rw [this, h1]
    · simp only [List.all_cons, h2, Bool.and_true]; rfl
    · simp [h5 h]
    · intro _; simp [h5 h]
  · simp only [h, if_false]
    refine ⟨h1, h2, h4 (by omega), ?_⟩
    intro h100
    have := h4 (by omega)
    have := h6 h100
    omega

theorem pad3_spec (n : Nat) (h : n < 1000) :
    digitsValue (pad3 n) = n ∧ (pad3 n).all isDigit = true ∧ (pad3 n).length = 3 := by
  have a1 : n / 100 % 10 < 10 := Nat.mod_lt _ (by norm_num)
  have a2 : n / 10 % 10 < 10 := Nat.mod_lt _ (by norm_num)
  have a3 : n % 10 < 10 := Nat.mod_lt _ (by norm_num)
  refine ⟨?_, ?_, rfl⟩
  · simp only [pad3, digitsValue, List.foldl_cons, List.foldl_nil, digitChar_toNat _ a1,
      digitChar_toNat _ a2, digitChar_toNat _ a3]
    omega
  · simp [pad3, digitChar_isDigit _ a1, digitChar_isDigit _ a2, digitChar_isDigit _ a3]


/-! ### Splitting and the clock helpers -/

theorem splitOnChar_of_not_mem (sep : Char) (a : Text) (h : ∀ c ∈ a, c ≠ sep) :
    splitOnChar sep a = [a] := by
  induction a with
  | nil => rfl
  | cons c cs ih =>
    have hc : c ≠ sep := h c (by simp)
    have hcs : ∀ x ∈ cs, x ≠ sep := fun x hx => h x (by simp [hx])
    simp [splitOnChar, hc, ih hcs]

theorem splitOnChar_append (sep : Char) (a b : Text) (h : ∀ c ∈ a, c ≠ sep) :
    splitOnChar sep (a ++ sep :: b) = a :: splitOnChar sep b := by
  induction a with
  | nil => simp [splitOnChar]
  | cons c cs ih =>
    have hc : c ≠ sep := h c (by simp)
    have hcs : ∀ x ∈ cs, x ≠ sep := fun x hx => h x (by simp [hx])
    simp [splitOnChar, hc, ih hcs]

theorem isDigit_ne_dot (c : Char) (h : isDigit c = true) : c ≠ '.' := by
  rintro rfl
  revert h
  decide

theorem digits_ne_colon (ds : Text) (h : ds.all isDigit = true) : ∀ c ∈ ds, c ≠ ':' :=
  fun c hc => isDigit_ne_colon c (List.all_eq_true.mp h c hc)

theorem digits_ne_dot (ds : Text) (h : ds.all isDigit = true) : ∀ c ∈ ds, c ≠ '.' :=
  fun c hc => isDigit_ne_dot c (List.all_eq_true.mp h c hc)

/-- The clock text assembled from its four fields. -/
theorem parseDuration_fields (hh mm ss fff : Text)
    (h1 : hh.all isDigit = true) (h2 : mm.all isDigit = true) (h3 : ss.all isDigit = true)
    (h4 : fff.all isDigit = true) (l1 : 2 ≤ hh.length) (l2 : mm.length = 2)
    (l3 : ss.length = 2) (l4 : fff.length = 3) :
    parseDuration (hh ++ ':' :: (mm ++ ':' :: (ss ++ '.' :: fff))) '.'
      = (wrapInt64 (((digitsValue hh * nsPerHour + digitsValue mm * nsPerMinute
          + digitsValue ss * nsPerSecond + digitsValue fff * nsPerMillisecond : Nat) : Int)),
         none) := by
  have hclock : ∀ c ∈ hh ++ ':' :: (mm ++ ':' :: ss), c ≠ '.' := by
    intro c hc
    simp only [List.mem_append, List.mem_cons] at hc
    rcases hc with hc | rfl | hc | rfl | hc
    · exact digits_ne_dot hh h1 c hc
    · decide
    · exact digits_ne_dot mm h2 c hc
    · decide
    · exact digits_ne_dot ss h3 c hc
  have hsplit1 : splitOnChar '.' (hh ++ ':' :: (mm ++ ':' :: (ss ++ '.' :: fff)))
      = [hh ++ ':' :: (mm ++ ':' :: ss), fff] := by
    have e : hh ++ ':' :: (mm ++ ':' :: (ss ++ '.' :: fff))
        = (hh ++ ':' :: (mm ++ ':' :: ss)) ++ '.' :: fff := by simp
    rw [e, splitOnChar_append '.' _ _ hclock, splitOnChar_of_not_mem '.' fff (digits_ne_dot fff h4)]
  have hsplit2 : splitOnChar ':' (hh ++ ':' :: (mm ++ ':' :: ss)) = [hh, mm, ss] := by
    rw [splitOnChar_append ':' _ _ (digits_ne_colon hh h1),
      splitOnChar_append ':' _ _ (digits_ne_colon mm h2),
      splitOnChar_of_not_mem ':' ss (digits_ne_colon ss h3)]
  have e1 : hh.isEmpty = false := by cases hh with
    | nil => simp at l1
    | cons a b => rfl
  have e2 : mm.isEmpty = false := by cases mm with
    | nil => simp at l2
    | cons a b => rfl
  have e3 : ss.isEmpty = false := by cases ss with
    | nil => simp at l3
    | cons a b => rfl
  have e4 : fff.isEmpty = false := by cases fff with
    | nil => simp at l4
    | cons a b => rfl
  unfold parseDuration
  rw [hsplit1]
  simp only [hsplit2, isNumeric, e1, e2, e3, e4, h1, h2, h3, h4, l1, l2, l3, l4]
  simp

theorem formatDuration_nonneg (n : Nat) (sep : Char) :
    formatDuration (n : Int) sep
      = pad2 (n / nsPerHour) ++ ':' :: (pad2 (n % nsPerHour / nsPerMinute)
          ++ ':' :: (pad2 (n % nsPerMinute / nsPerSecond)
          ++ sep :: pad3 (n % nsPerSecond / nsPerMillisecond))) := by
  have h : ¬ ((n : Int) < 0) := by omega
  simp [formatDuration, h]

/-- A whole number of milliseconds below `2 ^ 63` ns survives formatting and
parsing. -/
theorem parseDuration_formatDuration (n : Nat) (hms : n % 1000000 = 0) (hlt : n < 2 ^ 63) :
    parseDuration (formatDuration (n : Int) '.') '.' = ((n : Int), none) := by
  obtain ⟨a1, a2, a3, _⟩ := pad2_spec (n / nsPerHour)
  obtain ⟨b1, b2, _, b4⟩ := pad2_spec (n % nsPerHour / nsPerMinute)
  obtain ⟨c1, c2, _, c4⟩ := pad2_spec (n % nsPerMinute / nsPerSecond)
  have hF : n % nsPerSecond / nsPerMillisecond < 1000 := by
    unfold nsPerSecond nsPerMillisecond; omega
  have hM : n % nsPerHour / nsPerMinute < 100 := by
    unfold nsPerHour nsPerMinute; omega
  have hS : n % nsPerMinute / nsPerSecond < 100 := by
    unfold nsPerMinute nsPerSecond; omega
  obtain ⟨d1, d2, d3⟩ := pad3_spec _ hF
  rw [formatDuration_nonneg, parseDuration_fields _ _ _ _ a2 b2 c2 d2 a3 (b4 hM) (c4 hS) d3,
    a1, b1, c1, d1]
  have hsum : n / nsPerHour * nsPerHour + n % nsPerHour / nsPerMinute * nsPerMinute
      + n % nsPerMinute / nsPerSecond * nsPerSecond
      + n % nsPerSecond / nsPerMillisecond * nsPerMillisecond = n := by
    unfold nsPerHour nsPerMinute nsPerSecond nsPerMillisecond; omega
  rw [hsum, wrapInt64_of_inInt64]
  unfold inInt64
  have : (2 : Nat) ^ 63 = 9223372036854775808 := by norm_num
  constructor <;> omega
theorem isDigit_bounds (c : Char) (h : isDigit c = true) : 48 ≤ c.toNat ∧ c.toNat ≤ 57 := by
  simp only [isDigit, Bool.and_eq_true, decide_eq_true_eq] at h
  obtain ⟨h1, h2⟩ := h
  have h1' : ('0' : Char).toNat ≤ c.toNat := h1
  have h2' : c.toNat ≤ ('9' : Char).toNat := h2
  exact ⟨h1', h2'⟩

theorem digitChar_of_isDigit (c : Char) (h : isDigit c = true) :
    digitChar (c.toNat - 48) = c := by
  obtain ⟨h1, h2⟩ := isDigit_bounds c h
  have hc : Char.ofNat c.toNat = c := Char.ofNat_toNat c
  unfold digitChar
  have e : 48 + (c.toNat - 48) = c.toNat := by omega
  rw [e, hc]

theorem digit_zero_of_value (c : Char) (h : isDigit c = true) (h0 : c.toNat - 48 = 0) :
    c = '0' := by
  have := digitChar_of_isDigit c h
  rw [h0] at this
  exact this.symm

theorem digit_value_lt (c : Char) (h : isDigit c = true) : c.toNat - 48 < 10 := by
  have := isDigit_bounds c h
  omega

theorem Itoa_digitsValue (ds : Text) :
    ds.all isDigit = true → ds ≠ [] → (ds.head? ≠ some '0' ∨ ds.length = 1) →
    Itoa (digitsValue ds) = ds
      ∧ (ds.head? ≠ some '0' → 1 ≤ digitsValue ds ∧ (2 ≤ ds.length → 10 ≤ digitsValue ds)) := by
  induction ds using List.reverseRecOn with
  | nil => intro _ h; exact absurd rfl h
  | append_singleton ds c ih =>
    intro hdig _ hcanon
    rw [List.all_append, Bool.and_eq_true] at hdig
    obtain ⟨hd1, hd2⟩ := hdig
    have hc : isDigit c = true := by simpa using hd2
    have hk := digit_value_lt c hc
    rw [digitsValue_append_singleton]
    cases ds with
    | nil =>
      have hv : digitsValue ([] : Text) = 0 := rfl
      rw [hv, Nat.mul_zero, Nat.zero_add]
      constructor
      · rw [Itoa_small _ hk, digitChar_of_isDigit c hc]
        rfl
      · intro hne
        refine ⟨?_, by simp⟩
        by_contra h0
        have hz : c.toNat - 48 = 0 := by omega
        exact hne (by simp [digit_zero_of_value c hc hz])
    | cons a as =>
      have hhead : (a :: as).head? ≠ some '0' := by
        rcases hcanon with h | h
        · simpa using h
        · simp at h
      obtain ⟨ih1, ih2⟩ := ih hd1 (by simp) (Or.inl hhead)
      obtain ⟨hpos, _⟩ := ih2 hhead
      have hge : ¬ (10 * digitsValue (a :: as) + (c.toNat - 48) < 10) := by omega
      constructor
      · rw [Itoa_large _ hge]
        have e1 : (10 * digitsValue (a :: as) + (c.toNat - 48)) / 10 = digitsValue (a :: as) := by
          omega
        have e2 : (10 * digitsValue (a :: as) + (c.toNat - 48)) % 10 = c.toNat - 48 := by
          omega
        rw [e1, e2, ih1, digitChar_of_isDigit c hc]
      · intro _
        exact ⟨by omega, fun _ => by omega⟩

theorem pad2_digitsValue (ds : Text) (hdig : ds.all isDigit = true) (hlen : 2 ≤ ds.length)
    (hcanon : ds.length = 2 ∨ ds.head? ≠ some '0') : pad2 (digitsValue ds) = ds := by
  have hne : ds ≠ [] := by
    rintro rfl
    simp at hlen
  by_cases hhead : ds.head? = some '0'
  · have hl2 : ds.length = 2 := by
      rcases hcanon with h | h
      · exact h
      · exact absurd hhead h
    match ds, hl2, hhead, hdig with
    | [a, b], _, hhead, hdig =>
      have ha : a = '0' := by simpa using hhead
      subst ha
      have hb : isDigit b = true := by
        simp only [List.all_cons, List.all_nil, Bool.and_true, Bool.and_eq_true] at hdig
        exact hdig.2
      have hk := digit_value_lt b hb
      have hv : digitsValue ['0', b] = b.toNat - 48 := by simp [digitsValue]
      rw [hv]
      unfold pad2
      rw [if_pos hk, Itoa_small _ hk, digitChar_of_isDigit b hb]
  · obtain ⟨h1, h2⟩ := Itoa_digitsValue ds hdig hne (Or.inl hhead)
    obtain ⟨_, h10⟩ := h2 hhead
    have hge : ¬ digitsValue ds < 10 := by
      have := h10 hlen
      omega
    unfold pad2
    rw [if_neg hge, h1]

theorem pad3_digitsValue (ds : Text) (hdig : ds.all isDigit = true) (hlen : ds.length = 3) :
    pad3 (digitsValue ds) = ds ∧ digitsValue ds < 1000 := by
  match ds, hlen, hdig with
  | [a, b, c], _, hdig =>
    simp only [List.all_cons, List.all_nil, Bool.and_true, Bool.and_eq_true] at hdig
    obtain ⟨ha, hb, hc⟩ := hdig
    have ka := digit_value_lt a ha
    have kb := digit_value_lt b hb
    have kc := digit_value_lt c hc
    have hv : digitsValue [a, b, c]
        = 100 * (a.toNat - 48) + 10 * (b.toNat - 48) + (c.toNat - 48) := by
      simp only [digitsValue, List.foldl_cons, List.foldl_nil]
      omega
    rw [hv]
    have e1 : (100 * (a.toNat - 48) + 10 * (b.toNat - 48) + (c.toNat - 48)) / 100 % 10
        = a.toNat - 48 := by omega
    have e2 : (100 * (a.toNat - 48) + 10 * (b.toNat - 48) + (c.toNat - 48)) / 10 % 10
        = b.toNat - 48 := by omega
    have e3 : (100 * (a.toNat - 48) + 10 * (b.toNat - 48) + (c.toNat - 48)) % 10
        = c.toNat - 48 := by omega
    refine ⟨?_, by omega⟩
    unfold pad3
    rw [e1, e2, e3, digitChar_of_isDigit a ha, digitChar_of_isDigit b hb,
      digitChar_of_isDigit c hc]

theorem findFramesFrom_no_colon (f : Text) (h : ∀ c ∈ f, c ≠ ':') :
    ∀ pos, findFramesFrom f pos = none := by
  induction f with
  | nil => intro pos; rfl
  | cons c cs ih =>
    intro pos
    have hc : c ≠ ':' := h c (by simp)
    have hcs : ∀ x ∈ cs, x ≠ ':' := fun x hx => h x (by simp [hx])
    simp [findFramesFrom, matchFramesHere, hc, ih hcs]

theorem all_isDigit_append_dot (p ds : Text) : (p ++ '.' :: ds).all isDigit = false := by
  rw [List.all_eq_false]
  exact ⟨'.', by simp, by decide⟩

theorem findFramesFrom_dot (a f : Text) (h : ∀ c ∈ f, c ≠ ':') :
    ∀ pos, findFramesFrom (a ++ '.' :: f) pos = none := by
  induction a with
  | nil =>
    intro pos
    have hd : ('.' : Char) ≠ ':' := by decide
    simp [findFramesFrom, matchFramesHere, hd, findFramesFrom_no_colon f h]
  | cons c cs ih =>
    intro pos
    show (if matchFramesHere (c :: (cs ++ '.' :: f)) = true then _
      else findFramesFrom (cs ++ '.' :: f) (pos + 1)) = _
    have hm : matchFramesHere (c :: (cs ++ '.' :: f)) = false := by
      simp only [matchFramesHere, all_isDigit_append_dot, Bool.and_false]
    rw [hm, if_neg (by simp), ih]

theorem FindStringIndex_dot (a f : Text) (h : f.all isDigit = true) :
    FindStringIndex (a ++ '.' :: f) = none :=
  findFramesFrom_dot a f (digits_ne_colon f h) 0


/-- C7, as stated, fails: the clock texts `00:99:00.000` (99 minutes),
`00:00:60.000` (60 seconds) and `000:00:00.000` (a third, leading zero of the
hours) are unmarshalled with success on a fresh `TTMLDuration`, and
`MarshalText` gives back `01:39:00.000`, `00:01:00.000` and `00:00:00.000`;
and `2562048:00:00.000`, whose time is beyond `int64`, is unmarshalled with
success to a negative duration and does not come back either. -/
theorem clock_text_roundtrip_fails :
    ((TTMLDuration.UnmarshalText parseDuration ⟨0, 0, 0⟩ "00:99:00.000".toList).2 = none
      ∧ (TTMLDuration.UnmarshalText parseDuration ⟨0, 0, 0⟩ "00:99:00.000".toList).1.MarshalText
          = ("01:39:00.000".toList, none)
      ∧ "01:39:00.000".toList ≠ "00:99:00.000".toList)
    ∧ ((TTMLDuration.UnmarshalText parseDuration ⟨0, 0, 0⟩ "00:00:60.000".toList).2 = none
      ∧ (TTMLDuration.UnmarshalText parseDuration ⟨0, 0, 0⟩ "00:00:60.000".toList).1.MarshalText
          = ("00:01:00.000".toList, none)
      ∧ "00:01:00.000".toList ≠ "00:00:60.000".toList)
    ∧ ((TTMLDuration.UnmarshalText parseDuration ⟨0, 0, 0⟩ "000:00:00.000".toList).2 = none
      ∧ (TTMLDuration.UnmarshalText parseDuration ⟨0, 0, 0⟩ "000:00:00.000".toList).1.MarshalText
          = ("00:00:00.000".toList, none)
      ∧ "00:00:00.000".toList ≠ "000:00:00.000".toList)
    ∧ ((TTMLDuration.UnmarshalText parseDuration ⟨0, 0, 0⟩ "2562048:00:00.000".toList).2 = none
      ∧ (TTMLDuration.UnmarshalText parseDuration ⟨0, 0, 0⟩ "2562048:00:00.000".toList).1.d < 0
      ∧ (TTMLDuration.UnmarshalText parseDuration ⟨0, 0, 0⟩
            "2562048:00:00.000".toList).1.MarshalText
          ≠ ("2562048:00:00.000".toList, none)) := by
  decide

/-- C7, amended: a plain clock text `hh:mm:ss.mmm` whose minutes and seconds
are below 60, whose hours have two digits or more digits without a leading
zero, and whose time is below `2 ^ 63` ns (it fits `int64`) is unmarshalled
with success on a fresh `TTMLDuration`, and `MarshalText` gives the text
back. -/
theorem clock_text_roundtrip (hh mm ss fff : Text)
    (h1 : hh.all isDigit = true) (h2 : mm.all isDigit = true) (h3 : ss.all isDigit = true)
    (h4 : fff.all isDigit = true) (l1 : 2 ≤ hh.length)
    (hcanon : hh.length = 2 ∨ hh.head? ≠ some '0') (l2 : mm.length = 2)
    (l3 : ss.length = 2) (l4 : fff.length = 3)
    (hfit : digitsValue hh * nsPerHour + digitsValue mm * nsPerMinute
      + digitsValue ss * nsPerSecond + digitsValue fff * nsPerMillisecond < 2 ^ 63)
    (hM : digitsValue mm < 60) (hS : digitsValue ss < 60) :
    (TTMLDuration.UnmarshalText parseDuration ⟨0, 0, 0⟩
        (hh ++ ':' :: (mm ++ ':' :: (ss ++ '.' :: fff)))).2 = none
    ∧ (TTMLDuration.UnmarshalText parseDuration ⟨0, 0, 0⟩
        (hh ++ ':' :: (mm ++ ':' :: (ss ++ '.' :: fff)))).1.MarshalText
      = (hh ++ ':' :: (mm ++ ':' :: (ss ++ '.' :: fff)), none) := by
  obtain ⟨p3, hF⟩ := pad3_digitsValue fff h4 l4
  have hfind : FindStringIndex (hh ++ ':' :: (mm ++ ':' :: (ss ++ '.' :: fff))) = none := by
    have e : hh ++ ':' :: (mm ++ ':' :: (ss ++ '.' :: fff))
        = (hh ++ ':' :: (mm ++ ':' :: ss)) ++ '.' :: fff := by simp
    rw [e]
    exact FindStringIndex_dot _ fff h4
  have hparse := parseDuration_fields hh mm ss fff h1 h2 h3 h4 l1 l2 l3 l4
  set v : Nat := digitsValue hh * nsPerHour + digitsValue mm * nsPerMinute
    + digitsValue ss * nsPerSecond + digitsValue fff * nsPerMillisecond with hv
  have hvlt : v < 9223372036854775808 := by
    have h63 : (2 : Nat) ^ 63 = 9223372036854775808 := by norm_num
    omega
  have hwrap : wrapInt64 (v : Int) = (v : Int) := by
    apply wrapInt64_of_inInt64
    unfold inInt64
    constructor <;> omega
  rw [hwrap] at hparse
  have hU : TTMLDuration.UnmarshalText parseDuration ⟨0, 0, 0⟩
      (hh ++ ':' :: (mm ++ ':' :: (ss ++ '.' :: fff))) = (⟨(v : Int), 0, 0⟩, none) := by
    unfold TTMLDuration.UnmarshalText
    simp only [hfind, hparse]
  rw [hU]
  refine ⟨rfl, ?_⟩
  have hdur : (TTMLDuration.mk (v : Int) 0 0).Duration = (v : Int) := by
    simp [TTMLDuration.Duration]
  have q1 : v / nsPerHour = digitsValue hh := by
    rw [hv]; unfold nsPerHour nsPerMinute nsPerSecond nsPerMillisecond; omega
  have q2 : v % nsPerHour / nsPerMinute = digitsValue mm := by
    rw [hv]; unfold nsPerHour nsPerMinute nsPerSecond nsPerMillisecond; omega
  have q3 : v % nsPerMinute / nsPerSecond = digitsValue ss := by
    rw [hv]; unfold nsPerHour nsPerMinute nsPerSecond nsPerMillisecond; omega
  have q4 : v % nsPerSecond / nsPerMillisecond = digitsValue fff := by
    rw [hv]; unfold nsPerHour nsPerMinute nsPerSecond nsPerMillisecond; omega
  unfold TTMLDuration.MarshalText
  rw [hdur, formatDuration_nonneg, q1, q2, q3, q4, pad2_digitsValue hh h1 l1 hcanon,
    pad2_digitsValue mm h2 (by omega) (Or.inl l2), pad2_digitsValue ss h3 (by omega) (Or.inl l3),
    p3]

/-- Witness of C7: the largest clock text that fits `int64`,
`2562047:47:16.854`. -/
theorem clock_text_roundtrip_witness :
    (TTMLDuration.UnmarshalText parseDuration ⟨0, 0, 0⟩ "2562047:47:16.854".toList).2 = none
    ∧ (TTMLDuration.UnmarshalText parseDuration ⟨0, 0, 0⟩
          "2562047:47:16.854".toList).1.MarshalText
      = ("2562047:47:16.854".toList, none) :=
  clock_text_roundtrip "2562047".toList "47".toList "16".toList "854".toList
    (by decide) (by decide) (by decide) (by decide) (by decide) (by decide) (by decide)
    (by decide) (by decide) (by decide) (by decide) (by decide)


/-! ### The writer's document -/

theorem foldl_append_singleton {α β : Type} (f : α → β) (xs : List α) (acc : List β) :
    xs.foldl (fun acc x => acc ++ [f x]) acc = acc ++ xs.map f := by
  induction xs generalizing acc with
  | nil => simp
  | cons x xs ih => simp [ih]

theorem buildTTML_foldl (items : List Subtitle) (ttml : TTML) :
    items.foldl (fun ttml sub =>
      let text : List TTMLText := sub.Text.foldl (fun text t => text ++ [{ Sentence := t }]) []
      { ttml with Subtitles := ttml.Subtitles ++
          [{ Begin := some { d := sub.StartAt, frames := 0, framerate := 0 },
             End := some { d := sub.EndAt, frames := 0, framerate := 0 },
             Text := text }] }) ttml
      = { ttml with Subtitles := ttml.Subtitles ++ items.map cueElement } := by
  induction items generalizing ttml with
  | nil => simp
  | cons sub items ih =>
    rw [List.foldl_cons, ih]
    simp only [foldl_append_singleton (fun t => ({ Sentence := t } : TTMLText)), List.nil_append,
      List.map_cons, List.append_assoc, List.singleton_append]
    rfl

theorem buildTTML_eq (items : List Subtitle) :
    buildTTML items = { Framerate := 0, Lang := "", Regions := [], Styles := [],
                        Subtitles := items.map cueElement } := by
  unfold buildTTML
  rw [buildTTML_foldl]
  rfl

theorem formatDuration_shape (d : Int) :
    ∃ a f, formatDuration d '.' = a ++ '.' :: f ∧ f.all isDigit = true := by
  have hF : d.natAbs % nsPerSecond / nsPerMillisecond < 1000 := by
    unfold nsPerSecond nsPerMillisecond; omega
  obtain ⟨_, hdig, _⟩ := pad3_spec _ hF
  refine ⟨(if d < 0 then ['-'] else []) ++ pad2 (d.natAbs / nsPerHour) ++ [':']
      ++ pad2 (d.natAbs % nsPerHour / nsPerMinute) ++ [':']
      ++ pad2 (d.natAbs % nsPerMinute / nsPerSecond),
    pad3 (d.natAbs % nsPerSecond / nsPerMillisecond), ?_, hdig⟩
  simp [formatDuration]

/-- The text of `MarshalText` never ends in a frame suffix. -/
theorem marshalText_no_frame_suffix (t : TTMLDuration) :
    FindStringIndex t.MarshalText.1 = none := by
  obtain ⟨a, f, h, hdig⟩ := formatDuration_shape t.Duration
  unfold TTMLDuration.MarshalText
  simp only
  rw [h]
  exact FindStringIndex_dot a f hdig

theorem duration_plain (d : Int) : (TTMLDuration.mk d 0 0).Duration = d := by
  simp [TTMLDuration.Duration]

/-- Marshalling then unmarshalling a whole number of milliseconds. -/
theorem unmarshalText_marshalText (d : Int) (h : wholeMilliseconds d) :
    TTMLDuration.UnmarshalText parseDuration ⟨0, 0, 0⟩ (TTMLDuration.mk d 0 0).MarshalText.1
      = (⟨d, 0, 0⟩, none) := by
  obtain ⟨h0, hlt, hms⟩ := h
  have hfind := marshalText_no_frame_suffix (TTMLDuration.mk d 0 0)
  obtain ⟨n, rfl⟩ := Int.eq_ofNat_of_zero_le h0
  have hparse := parseDuration_formatDuration n (by omega) (by exact_mod_cast hlt)
  unfold TTMLDuration.UnmarshalText
  simp only [hfind]
  simp only [TTMLDuration.MarshalText, duration_plain, hparse]


/-! ### The reader's loop -/

theorem readLoop_resolved (framerate : Int) (subs : List TTMLSubtitle) :
    ∀ (o : Subtitles) (cues : List (TTMLDuration × TTMLDuration)),
    List.Forall₂ (fun s be => s.Begin = some be.1 ∧ s.End = some be.2) subs cues →
    readLoop framerate subs o
      = some ⟨o.Items ++ (subs.zip cues).map
          (fun p => resolvedCue framerate p.2.1 p.2.2 p.1.Text)⟩ := by
  induction subs with
  | nil =>
    intro o cues h
    cases h
    simp [readLoop]
  | cons s subs ih =>
    intro o cues h
    cases h with
    | cons hhead htail =>
      rename_i be cues
      obtain ⟨hb, he⟩ := hhead
      have hstep : readStep framerate o s
          = some ⟨o.Items ++ [resolvedCue framerate be.1 be.2 s.Text]⟩ := by
        simp only [readStep, hb, he, resolvedCue,
          foldl_append_singleton (fun t : TTMLText => t.Sentence), List.nil_append]
      simp only [readLoop, hstep, ih _ cues htail, List.zip_cons_cons, List.map_cons,
        List.append_assoc, List.singleton_append]

theorem forall₂_of_all_some (subs : List TTMLSubtitle)
    (h : ∀ s ∈ subs, s.Begin.isSome = true ∧ s.End.isSome = true) :
    ∃ cues : List (TTMLDuration × TTMLDuration),
      List.Forall₂ (fun s be => s.Begin = some be.1 ∧ s.End = some be.2) subs cues := by
  induction subs with
  | nil => exact ⟨[], List.Forall₂.nil⟩
  | cons s subs ih =>
    obtain ⟨cues, hc⟩ := ih (fun x hx => h x (by simp [hx]))
    obtain ⟨hb, he⟩ := h s (by simp)
    obtain ⟨b, hb⟩ := Option.isSome_iff_exists.mp hb
    obtain ⟨e, he⟩ := Option.isSome_iff_exists.mp he
    exact ⟨(b, e) :: cues, List.Forall₂.cons ⟨hb, he⟩ hc⟩

/-- C8: when the document is unmarshalled without error and every cue element
carries a begin and an end timecode, `ReadFromTTML` returns without error one
cue per element, in document order; the cue at index `i` has for `StartAt` and
`EndAt` the `Duration` of the element's begin and end once their frame rate is
set to the document's, and for `Text` the sentences of its spans, one line per
span. -/
theorem readFromTTML_cues (parse : Text → Char → Int × Option Error) (i : XMLInput)
    (ttml : TTML) (hdec : Decode parse i = (ttml, none))
    (h : ∀ s ∈ ttml.Subtitles, s.Begin.isSome = true ∧ s.End.isSome = true) :
    ∃ items : List Subtitle,
      ReadFromTTML parse i = Outcome.returned ⟨items⟩ none
      ∧ items.length = ttml.Subtitles.length
      ∧ ∀ (k : Nat) (s : TTMLSubtitle), ttml.Subtitles[k]? = some s →
          ∃ b e : TTMLDuration, s.Begin = some b ∧ s.End = some e
            ∧ items[k]? = some
                ⟨(TTMLDuration.mk e.d e.frames ttml.Framerate).Duration,
                 (TTMLDuration.mk b.d b.frames ttml.Framerate).Duration,
                 s.Text.map (fun t => t.Sentence)⟩ := by
  obtain ⟨cues, hc⟩ := forall₂_of_all_some ttml.Subtitles h
  have hloop := readLoop_resolved ttml.Framerate ttml.Subtitles {} cues hc
  have hlen := hc.length_eq
  refine ⟨(ttml.Subtitles.zip cues).map
      (fun p => resolvedCue ttml.Framerate p.2.1 p.2.2 p.1.Text), ?_, ?_, ?_⟩
  · unfold ReadFromTTML readFromDecoded
    simp only [hdec, hloop]
    simp
  · simp [hlen]
  · intro k s hs
    have hk : k < ttml.Subtitles.length := by
      rcases List.getElem?_eq_some_iff.mp hs with ⟨hk, _⟩
      exact hk
    have hk2 : k < cues.length := by omega
    have hs' : ttml.Subtitles[k] = s := by
      rcases List.getElem?_eq_some_iff.mp hs with ⟨_, h2⟩
      exact h2
    have hrel := List.Forall₂.get hc hk hk2
    simp only [List.get_eq_getElem] at hrel
    rw [hs'] at hrel
    refine ⟨cues[k].1, cues[k].2, hrel.1, hrel.2, ?_⟩
    have hz : (ttml.Subtitles.zip cues)[k]? = some (s, cues[k]) :=
      List.getElem?_zip_eq_some.mpr ⟨hs, List.getElem?_eq_getElem hk2⟩
    rw [List.getElem?_map, hz]
    rfl

/-- Witness of C8: at frame rate 25 a cue from `00:00:01:10` to `00:00:02.500`
starts at 1.4 s and ends at 2.5 s. -/
theorem readFromTTML_cues_witness :
    (∃ items : List Subtitle,
      ReadFromTTML parseDuration exampleInput = Outcome.returned ⟨items⟩ none
      ∧ items.length = exampleTTML.Subtitles.length
      ∧ ∀ (k : Nat) (s : TTMLSubtitle), exampleTTML.Subtitles[k]? = some s →
          ∃ b e : TTMLDuration, s.Begin = some b ∧ s.End = some e
            ∧ items[k]? = some
                ⟨(TTMLDuration.mk e.d e.frames exampleTTML.Framerate).Duration,
                 (TTMLDuration.mk b.d b.frames exampleTTML.Framerate).Duration,
                 s.Text.map (fun t => t.Sentence)⟩)
    ∧ ReadFromTTML parseDuration exampleInput
        = Outcome.returned ⟨[⟨2500000000, 1400000000, ["hello"]⟩]⟩ none :=
  ⟨readFromTTML_cues parseDuration exampleInput exampleTTML (by decide) (by decide), by decide⟩


/-! ### Encoding then decoding -/

theorem decodeCue_encodeCue (sub : Subtitle)
    (h : wholeMilliseconds sub.StartAt ∧ wholeMilliseconds sub.EndAt) :
    decodeCue parseDuration (encodeCue (cueElement sub)) = (cueElement sub, none) := by
  have hb := unmarshalText_marshalText sub.StartAt h.1
  have he := unmarshalText_marshalText sub.EndAt h.2
  simp only [decodeCue, encodeCue, cueElement, marshalAttr, unmarshalAttr, Option.map_some',
    hb, he]

theorem decodeCues_encodeCue (items : List Subtitle)
    (h : ∀ c ∈ items, wholeMilliseconds c.StartAt ∧ wholeMilliseconds c.EndAt) :
    decodeCues parseDuration ((items.map cueElement).map encodeCue)
      = (items.map cueElement, none) := by
  induction items with
  | nil => rfl
  | cons sub items ih =>
    have h1 := decodeCue_encodeCue sub (h sub (by simp))
    have h2 := ih (fun c hc => h c (by simp [hc]))
    simp only [List.map_cons, decodeCues, h1, h2]

theorem resolvedCue_cueElement (sub : Subtitle) :
    resolvedCue 0 ⟨sub.StartAt, 0, 0⟩ ⟨sub.EndAt, 0, 0⟩ (cueElement sub).Text = sub := by
  cases sub with
  | mk e s t =>
    simp only [resolvedCue, cueElement, duration_plain, List.map_map]
    congr 1
    exact List.map_id t

theorem readLoop_cueElement (items : List Subtitle) :
    ∀ o : Subtitles, readLoop 0 (items.map cueElement) o = some ⟨o.Items ++ items⟩ := by
  induction items with
  | nil => intro o; simp [readLoop]
  | cons sub items ih =>
    intro o
    have hstep : readStep 0 o (cueElement sub) = some ⟨o.Items ++ [sub]⟩ := by
      have := resolvedCue_cueElement sub
      simp only [resolvedCue, cueElement] at this
      simp only [readStep, cueElement,
        foldl_append_singleton (fun t : TTMLText => t.Sentence), List.nil_append, this]
    simp only [List.map_cons, readLoop, hstep, ih, List.append_assoc, List.singleton_append]

/-- C6, as stated, fails: a cue that starts at 1.033333333 s (one frame at 30
frames per second after the first second) is written as `00:00:01.033` and
read back as starting at 1.033 s. -/
theorem ttml_roundtrip_drops_submilliseconds :
    ReadFromTTML parseDuration (XMLInput.document (encodeDocument
        (buildTTML [⟨2500000000, 1033333333, ["hello"]⟩])))
      = Outcome.returned ⟨[⟨2500000000, 1033000000, ["hello"]⟩]⟩ none
    ∧ (⟨[⟨2500000000, 1033000000, ["hello"]⟩]⟩ : Subtitles)
      ≠ ⟨[⟨2500000000, 1033333333, ["hello"]⟩]⟩ := by
  decide

/-- C6, amended: for a container of one or more cues whose start and end times
are non-negative whole numbers of milliseconds, `WriteToTTML` hands the
encoder the document `buildTTML` makes of the cues, and reading back the
elements of that document, each begin and end rendered by `MarshalText` and
read by `UnmarshalText`, returns without error the same cues in the same
order, with the same start and end times and the same text lines. -/
theorem ttml_roundtrip (s : Subtitles) (hne : s.Items ≠ [])
    (h : ∀ c ∈ s.Items, wholeMilliseconds c.StartAt ∧ wholeMilliseconds c.EndAt) :
    (∀ (W : Type) (Encode : TTML → W → W × Option Error) (o : W),
        s.WriteToTTML Encode o = Encode (buildTTML s.Items) o)
    ∧ ReadFromTTML parseDuration (XMLInput.document (encodeDocument (buildTTML s.Items)))
        = Outcome.returned s none := by
  constructor
  · intro W Encode o
    have hlen : s.Items.length ≠ 0 := fun h0 => hne (List.length_eq_zero.mp h0)
    simp only [Subtitles.WriteToTTML, hlen, if_false]
  · have hdec := decodeCues_encodeCue s.Items h
    have hloop := readLoop_cueElement s.Items {}
    simp only [ReadFromTTML, Decode, encodeDocument, buildTTML_eq, hdec, readFromDecoded, hloop]
    simp

/-- Witness of C6: one cue from 1.4 s to 2.5 s with the line `hello`. -/
theorem ttml_roundtrip_witness :
    ReadFromTTML parseDuration (XMLInput.document (encodeDocument
        (buildTTML [⟨2500000000, 1400000000, ["hello"]⟩])))
      = Outcome.returned ⟨[⟨2500000000, 1400000000, ["hello"]⟩]⟩ none :=
  (ttml_roundtrip ⟨[⟨2500000000, 1400000000, ["hello"]⟩]⟩ (by decide) (by decide)).2

/-- C9: for a non-empty container `WriteToTTML` hands the encoder a document
with one cue element per item, in item order; the element's begin and end are
timecodes with base `StartAt` and `EndAt`, no frames and no frame rate, its
spans are the text lines in order, without style, and the frame rate, the
regions and the styles of the document are empty. The begin and end attributes
are the `hh:mm:ss.mmm` texts of `StartAt` and `EndAt`, which never end in a
frame suffix. -/
theorem writeToTTML_document (s : Subtitles) (hne : s.Items ≠ []) :
    (∀ (W : Type) (Encode : TTML → W → W × Option Error) (o : W),
        s.WriteToTTML Encode o = Encode (buildTTML s.Items) o)
    ∧ buildTTML s.Items
        = { Framerate := 0, Lang := "", Regions := [], Styles := [],
            Subtitles := s.Items.map (fun sub =>
              ⟨some ⟨sub.StartAt, 0, 0⟩, some ⟨sub.EndAt, 0, 0⟩, "", "",
                sub.Text.map (fun t => ⟨"", t⟩)⟩) }
    ∧ (encodeDocument (buildTTML s.Items)).cues
        = s.Items.map (fun sub =>
            ⟨some (formatDuration sub.StartAt '.'), some (formatDuration sub.EndAt '.'), "", "",
              sub.Text.map (fun t => ⟨"", t⟩)⟩)
    ∧ ∀ sub ∈ s.Items, FindStringIndex (formatDuration sub.StartAt '.') = none
        ∧ FindStringIndex (formatDuration sub.EndAt '.') = none := by
  refine ⟨?_, ?_, ?_, ?_⟩
  · intro W Encode o
    have hlen : s.Items.length ≠ 0 := fun h0 => hne (List.length_eq_zero.mp h0)
    simp only [Subtitles.WriteToTTML, hlen, if_false]
  · rw [buildTTML_eq]
    rfl
  · rw [buildTTML_eq]
    simp only [encodeDocument, List.map_map]
    apply List.map_congr_left
    intro sub _
    simp only [Function.comp, encodeCue, cueElement, marshalAttr, Option.map_some',
      TTMLDuration.MarshalText, duration_plain]
  · intro sub _
    have h1 := marshalText_no_frame_suffix ⟨sub.StartAt, 0, 0⟩
    have h2 := marshalText_no_frame_suffix ⟨sub.EndAt, 0, 0⟩
    simp only [TTMLDuration.MarshalText, duration_plain] at h1 h2
    exact ⟨h1, h2⟩

/-- Witness of C9: the cue from 1.4 s to 2.5 s with the line `hello` gives
`begin="00:00:01.400"`, `end="00:00:02.500"` and one span `hello`. -/
theorem writeToTTML_document_witness :
    (encodeDocument (buildTTML [⟨2500000000, 1400000000, ["hello"]⟩])).cues
      = [⟨some "00:00:01.400".toList, some "00:00:02.500".toList, "", "", [⟨"", "hello"⟩]⟩] :=
  (writeToTTML_document ⟨[⟨2500000000, 1400000000, ["hello"]⟩]⟩ (by decide)).2.2.1

/-! ### Failure of `ReadFromTTML` -/

theorem decodeCue_error (parse : Text → Char → Int × Option Error) (c : XMLCue) (e : Error)
    (h : (decodeCue parse c).2 = some e) :
    ∃ v, (c.beginAttr = some v ∨ c.endAttr = some v)
      ∧ (TTMLDuration.UnmarshalText parse ⟨0, 0, 0⟩ v).2 = some e := by
  unfold decodeCue at h
  cases hb : c.beginAttr with
  | none =>
    cases he : c.endAttr with
    | none => simp [hb, he, unmarshalAttr] at h
    | some w =>
      cases hw : (TTMLDuration.UnmarshalText parse ⟨0, 0, 0⟩ w).2 with
      | none => simp [hb, he, unmarshalAttr, hw] at h
      | some e' =>
        simp [hb, he, unmarshalAttr, hw] at h
        exact ⟨w, Or.inr rfl, by rw [hw, h]⟩
  | some v =>
    cases hv : (TTMLDuration.UnmarshalText parse ⟨0, 0, 0⟩ v).2 with
    | some e' =>
      simp [hb, unmarshalAttr, hv] at h
      exact ⟨v, Or.inl rfl, by rw [hv, h]⟩
    | none =>
      cases he : c.endAttr with
      | none => simp [hb, he, unmarshalAttr, hv] at h
      | some w =>
        cases hw : (TTMLDuration.UnmarshalText parse ⟨0, 0, 0⟩ w).2 with
        | none => simp [hb, he, unmarshalAttr, hv, hw] at h
        | some e' =>
          simp [hb, he, unmarshalAttr, hv, hw] at h
          exact ⟨w, Or.inr (by simp), by rw [hw, h]⟩

theorem decodeCue_fails (parse : Text → Char → Int × Option Error) (c : XMLCue) (v : Text)
    (hv : c.beginAttr = some v ∨ c.endAttr = some v)
    (hf : (TTMLDuration.UnmarshalText parse ⟨0, 0, 0⟩ v).2 ≠ none) :
    (decodeCue parse c).2 ≠ none := by
  obtain ⟨e, he⟩ := Option.ne_none_iff_exists'.mp hf
  unfold decodeCue
  rcases hv with hv | hv
  · simp [hv, unmarshalAttr, he]
  · cases hb : c.beginAttr with
    | none => simp [hv, unmarshalAttr, he]
    | some w =>
      cases hw : (TTMLDuration.UnmarshalText parse ⟨0, 0, 0⟩ w).2 with
      | none => simp [hv, unmarshalAttr, he, hw]
      | some e' => simp [unmarshalAttr, hw]

theorem decodeCues_error (parse : Text → Char → Int × Option Error) (cues : List XMLCue)
    (e : Error) (h : (decodeCues parse cues).2 = some e) :
    ∃ c ∈ cues, (decodeCue parse c).2 = some e := by
  induction cues with
  | nil => simp [decodeCues] at h
  | cons c cs ih =>
    unfold decodeCues at h
    cases hc : (decodeCue parse c).2 with
    | some e' =>
      simp only [hc] at h
      exact ⟨c, by simp, by rw [hc]; exact h⟩
    | none =>
      simp only [hc] at h
      obtain ⟨c', hm, hc'⟩ := ih h
      exact ⟨c', by simp [hm], hc'⟩

theorem decodeCues_fails (parse : Text → Char → Int × Option Error) (cues : List XMLCue)
    (c : XMLCue) (hm : c ∈ cues) (hc : (decodeCue parse c).2 ≠ none) :
    (decodeCues parse cues).2 ≠ none := by
  induction cues with
  | nil => simp at hm
  | cons a cs ih =>
    unfold decodeCues
    cases ha : (decodeCue parse a).2 with
    | some e' => simp [ha]
    | none =>
      simp only [ha]
      rcases List.mem_cons.mp hm with rfl | hm'
      · exact absurd ha hc
      · exact ih hm'

/-- C10: `ReadFromTTML` returns the error of `Decode` whenever `Decode` fails;
`Decode` fails, with the error of an `UnmarshalText` call, whenever
`UnmarshalText` fails on the begin or end text of a cue; and whenever
`ReadFromTTML` returns an error the `Subtitles` it returns holds no cue. -/
theorem readFromTTML_failure (parse : Text → Char → Int × Option Error) (i : XMLInput) :
    (∀ e, (Decode parse i).2 = some e →
        ReadFromTTML parse i = Outcome.returned ⟨[]⟩ (some e))
    ∧ (∀ doc c v, i = XMLInput.document doc → c ∈ doc.cues →
        (c.beginAttr = some v ∨ c.endAttr = some v) →
        (TTMLDuration.UnmarshalText parse ⟨0, 0, 0⟩ v).2 ≠ none →
        ∃ e, ReadFromTTML parse i = Outcome.returned ⟨[]⟩ (some e)
          ∧ ∃ c' ∈ doc.cues, ∃ v', (c'.beginAttr = some v' ∨ c'.endAttr = some v')
              ∧ (TTMLDuration.UnmarshalText parse ⟨0, 0, 0⟩ v').2 = some e)
    ∧ (∀ o e, ReadFromTTML parse i = Outcome.returned o (some e) → o.Items = []) := by
  have hfail : ∀ e, (Decode parse i).2 = some e →
      ReadFromTTML parse i = Outcome.returned ⟨[]⟩ (some e) := by
    intro e he
    simp only [ReadFromTTML, readFromDecoded, he]
  refine ⟨hfail, ?_, ?_⟩
  · intro doc c v hi hc hv hf
    subst hi
    have h1 := decodeCue_fails parse c v hv hf
    have h2 := decodeCues_fails parse doc.cues c hc h1
    obtain ⟨e, he⟩ := Option.ne_none_iff_exists'.mp h2
    have hdec : (Decode parse (XMLInput.document doc)).2 = some e := by
      simp only [Decode, he]
    obtain ⟨c', hc', he'⟩ := decodeCues_error parse doc.cues e he
    obtain ⟨v', hv', hu⟩ := decodeCue_error parse c' e he'
    exact ⟨e, hfail e hdec, c', hc', v', hv', hu⟩
  · intro o e h
    unfold ReadFromTTML readFromDecoded at h
    cases hd : (Decode parse i).2 with
    | some e' =>
      simp only [hd, Outcome.returned.injEq] at h
      rw [← h.1]
    | none =>
      simp only [hd] at h
      cases hl : readLoop (Decode parse i).1.Framerate (Decode parse i).1.Subtitles {} with
      | none => simp [hl] at h
      | some o1 => simp [hl] at h

/-- Witness of C10: a second cue whose end is no clock time makes the whole
read fail with the format error, and no cue is returned. -/
theorem readFromTTML_failure_witness :
    ReadFromTTML parseDuration (XMLInput.document
        { cues := [{ beginAttr := some "00:00:01.000".toList,
                     endAttr := some "00:00:02.500".toList },
                   { beginAttr := some "00:00:03.000".toList,
                     endAttr := some "00:00:0x.000".toList }] })
      = Outcome.returned ⟨[]⟩ (some (Error.format "00:00:0x.000".toList)) :=
  (readFromTTML_failure parseDuration _).1 _ (by decide)


/-- C11: on a text that ends in `:<digits>`, a digit run whose value does not
fit a 64-bit `int` makes `UnmarshalText` return an error, the wrapped range
error of `Atoi`; and a digit run whose value fits is parsed by `Atoi` without
error, to that value. -/
theorem unmarshalText_frame_count_range (parse : Text → Char → Int × Option Error)
    (t : TTMLDuration) (p ds : Text) (hne : ds ≠ []) (hdig : ∀ c ∈ ds, isDigit c = true) :
    (¬ Nat.ofDigits 10 (ds.reverse.map (fun c => c.toNat - 48)) < 2 ^ 63 →
        (TTMLDuration.UnmarshalText parse t (p ++ ':' :: ds)).2
          = some (Error.atoiFailed (Error.atoiRange ds) ds))
    ∧ (Nat.ofDigits 10 (ds.reverse.map (fun c => c.toNat - 48)) < 2 ^ 63 →
        Atoi ds = (((Nat.ofDigits 10 (ds.reverse.map (fun c => c.toNat - 48)) : Nat) : Int),
          none)) := by
  have hall : ds.all isDigit = true := List.all_eq_true.mpr hdig
  rw [← digitsValue_eq_ofDigits]
  constructor
  · intro hbig
    rcases unmarshalText_suffix_cases parse t p ds hne hdig with ⟨hfit, _⟩ | ⟨_, herr, _⟩
    · exact absurd hfit hbig
    · exact herr
  · intro hfit
    exact Atoi_digits ds hne hall hfit

/-- Witness of C11: the frame count `9223372036854775808`, one above the
largest `int`, is refused, and `9223372036854775807` is parsed. -/
theorem unmarshalText_frame_count_range_witness :
    (TTMLDuration.UnmarshalText parseDuration ⟨0, 0, 0⟩
        "00:00:01:9223372036854775808".toList).2
      = some (Error.atoiFailed (Error.atoiRange "9223372036854775808".toList)
          "9223372036854775808".toList)
    ∧ Atoi "9223372036854775807".toList = (9223372036854775807, none) :=
  ⟨(unmarshalText_frame_count_range parseDuration ⟨0, 0, 0⟩ "00:00:01".toList
      "9223372036854775808".toList (by decide) (by decide)).1 (by decide),
   (unmarshalText_frame_count_range parseDuration ⟨0, 0, 0⟩ "00:00:01".toList
      "9223372036854775807".toList (by decide) (by decide)).2 (by decide)⟩

/-- C12 fails on the code: a document whose only cue element has an `end` but
no `begin` attribute is unmarshalled without error, its `Begin` pointer stays
nil, and the loop of `ReadFromTTML` dereferences it: the call panics instead of
returning. -/
theorem readFromTTML_panics_on_absent_begin :
    Decode parseDuration (XMLInput.document
        { cues := [{ endAttr := some "00:00:02.500".toList,
                     spans := [{ Sentence := "hello" }] }] })
      = ({ Subtitles := [{ Begin := none, End := some ⟨2500000000, 0, 0⟩,
                           Text := [{ Sentence := "hello" }] }] }, none)
    ∧ ReadFromTTML parseDuration (XMLInput.document
        { cues := [{ endAttr := some "00:00:02.500".toList,
                     spans := [{ Sentence := "hello" }] }] })
      = Outcome.panicked := by
  decide

/-- The frame offset of zero frames is zero nanoseconds at every frame rate. -/
theorem frameNanos_zero (r : Int) : frameNanos 0 r = 0 := by
  have h1 : Float64.ofInt 0 = ⟨0, 0⟩ := by decide
  have h2 : Float64.div ⟨0, 0⟩ (Float64.ofInt r) = ⟨0, 0 - (Float64.ofInt r).e⟩ := by
    simp [Float64.div, roundQuot]
  have h3 : ∀ e : Int, Float64.mul ⟨0, e⟩ Float64.billion = ⟨0, 0 + e + 0⟩ := by
    intro e
    simp [Float64.mul, Float64.billion, roundQuot]
  have h4 : ∀ e : Int, Float64.toInt64 ⟨0, e⟩ = 0 := by
    intro e
    have ht : Float64.trunc ⟨0, e⟩ = 0 := by
      unfold Float64.trunc
      split <;> simp
    unfold Float64.toInt64
    rw [ht, if_pos (by decide)]
  unfold frameNanos
  rw [h1, h2, h3, h4]

/-- C13: with no frames, `Duration` returns the base duration (an `int64`) at
every frame rate, positive, zero or negative. -/
theorem duration_plain_clock (d r : Int) (hd : inInt64 d) :
    (TTMLDuration.mk d 0 r).Duration = d := by
  unfold TTMLDuration.Duration
  split
  · simp only [frameNanos_zero, zero_mul]
    have h0 : wrapInt64 0 = 0 := by decide
    rw [h0, add_zero, wrapInt64_of_inInt64 d hd]
  · rfl

/-- Witness of C13: 2.5 s at frame rates 25, 0 and -1. -/
theorem duration_plain_clock_witness :
    (TTMLDuration.mk 2500000000 0 25).Duration = 2500000000
    ∧ (TTMLDuration.mk 2500000000 0 0).Duration = 2500000000
    ∧ (TTMLDuration.mk 2500000000 0 (-1)).Duration = 2500000000 :=
  ⟨duration_plain_clock 2500000000 25 (by decide),
   duration_plain_clock 2500000000 0 (by decide),
   duration_plain_clock 2500000000 (-1) (by decide)⟩


/-! ### The two timestamp forms -/

theorem afterLastColon_none (f : Text) (h : ∀ c ∈ f, c ≠ ':') : afterLastColon f = none := by
  induction f with
  | nil => rfl
  | cons c cs ih =>
    have hc : c ≠ ':' := h c (by simp)
    simp [afterLastColon, ih (fun x hx => h x (by simp [hx])), hc]

theorem afterLastColon_append (p ds : Text) (h : ∀ c ∈ ds, c ≠ ':') :
    afterLastColon (p ++ ':' :: ds) = some ds := by
  induction p with
  | nil => simp [afterLastColon, afterLastColon_none ds h]
  | cons c cs ih => simp [afterLastColon, ih]

theorem afterLastColon_some (text : Text) : ∀ ds, afterLastColon text = some ds →
    ∃ p, text = p ++ ':' :: ds := by
  induction text with
  | nil => intro ds h; simp [afterLastColon] at h
  | cons c cs ih =>
    intro ds h
    unfold afterLastColon at h
    cases hcs : afterLastColon cs with
    | some rest =>
      simp only [hcs, Option.some.injEq] at h
      subst h
      obtain ⟨p, hp⟩ := ih rest hcs
      exact ⟨c :: p, by simp [hp]⟩
    | none =>
      simp only [hcs] at h
      by_cases hc : c = ':'
      · simp only [hc, if_true, Option.some.injEq] at h
        exact ⟨[], by simp [hc, h]⟩
      · simp [hc] at h

theorem frameBased_iff (text : Text) :
    frameBased text = true
      ↔ ∃ p ds, text = p ++ ':' :: ds ∧ ds ≠ [] ∧ ∀ c ∈ ds, isDigit c = true := by
  constructor
  · intro h
    unfold frameBased at h
    cases ha : afterLastColon text with
    | none => simp [ha] at h
    | some ds =>
      simp only [ha, Bool.and_eq_true, Bool.not_eq_true', List.all_eq_true] at h
      obtain ⟨p, hp⟩ := afterLastColon_some text ds ha
      refine ⟨p, ds, hp, ?_, h.2⟩
      intro hnil
      simp [hnil] at h
  · rintro ⟨p, ds, rfl, hne, hdig⟩
    have hall : ds.all isDigit = true := List.all_eq_true.mpr hdig
    have he : ds.isEmpty = false := by
      cases ds with
      | nil => exact absurd rfl hne
      | cons a b => rfl
    unfold frameBased
    rw [afterLastColon_append p ds (digits_ne_colon ds hall)]
    simp [he, hall]

/-- C14: a text that is not frame-based (what follows its last `:` is not a
non-empty run of digits reaching the end, or it has no `:`) leaves the frame
count of the receiver as it was and goes unmodified to `parseDuration`; a text
`a.fff` with digits `fff` is never frame-based; and a frame-based text
`p:ds` has its frame count taken from `Atoi ds` and, when `Atoi` succeeds, its
base time parsed from `p.000`. -/
theorem unmarshalText_forms (parse : Text → Char → Int × Option Error)
    (t : TTMLDuration) (i : Text) :
    (frameBased i = false →
        TTMLDuration.UnmarshalText parse t i
          = (⟨(parse i '.').1, t.frames, t.framerate⟩, (parse i '.').2))
    ∧ (∀ a f, i = a ++ '.' :: f → (∀ c ∈ f, isDigit c = true) → frameBased i = false)
    ∧ (frameBased i = true →
        ∃ p ds, i = p ++ ':' :: ds ∧ afterLastColon i = some ds
          ∧ FindStringIndex i = some (p.length, i.length)
          ∧ (TTMLDuration.UnmarshalText parse t i).1.frames = (Atoi ds).1
          ∧ ((Atoi ds).2 = none →
              TTMLDuration.UnmarshalText parse t i
                = (⟨(parse (p ++ ".000".toList) '.').1, (Atoi ds).1, t.framerate⟩,
                   (parse (p ++ ".000".toList) '.').2))
          ∧ (∀ e, (Atoi ds).2 = some e →
              (TTMLDuration.UnmarshalText parse t i).2 = some (Error.atoiFailed e ds))) := by
  refine ⟨?_, ?_, ?_⟩
  · intro h
    have hno : ¬ ∃ p ds, i = p ++ ':' :: ds ∧ ds ≠ [] ∧ ∀ c ∈ ds, isDigit c = true := by
      intro hex
      have := (frameBased_iff i).mpr hex
      rw [h] at this
      exact absurd this (by simp)
    unfold TTMLDuration.UnmarshalText
    simp only [FindStringIndex_none i hno]
  · intro a f hi hf
    have hall : f.all isDigit = true := List.all_eq_true.mpr hf
    cases hfb : frameBased i with
    | false => rfl
    | true =>
      exfalso
      obtain ⟨p, ds, hp, hne, hdig⟩ := (frameBased_iff i).mp hfb
      have h1 := FindStringIndex_suffix p ds hne (List.all_eq_true.mpr hdig)
      have h2 := FindStringIndex_dot a f hall
      rw [← hp, hi, h2] at h1
      exact absurd h1 (by simp)
  · intro h
    obtain ⟨p, ds, hp, hne, hdig⟩ := (frameBased_iff i).mp h
    have hall : ds.all isDigit = true := List.all_eq_true.mpr hdig
    subst hp
    have hfind := FindStringIndex_suffix p ds hne hall
    have hlen : (p ++ ':' :: ds).length = p.length + (ds.length + 1) := by simp
    have htake : (p ++ ':' :: ds).take (p.length + (ds.length + 1)) = p ++ ':' :: ds := by
      apply List.take_of_length_le
      simp
    have hdrop : (p ++ ':' :: ds).drop (p.length + 1) = ds := by
      rw [List.drop_append_eq_append_drop]
      simp
    have hp : (p ++ ':' :: ds).take p.length = p := by
      rw [List.take_append_eq_append_take]
      simp
    refine ⟨p, ds, rfl, afterLastColon_append p ds (digits_ne_colon ds hall), ?_, ?_, ?_, ?_⟩
    · rw [hfind, hlen]
    · unfold TTMLDuration.UnmarshalText
      simp only [hfind, htake, hdrop]
      cases (Atoi ds).2 <;> rfl
    · intro hok
      unfold TTMLDuration.UnmarshalText
      simp only [hfind, htake, hdrop, hp, hok]
    · intro e he
      unfold TTMLDuration.UnmarshalText
      simp only [hfind, htake, hdrop, he]

/-- Witness of C14: `00:00:02.500` is a plain clock time and goes unmodified to
the parse; `00:00:01:10` is frame-based. -/
theorem unmarshalText_forms_witness :
    TTMLDuration.UnmarshalText parseDuration ⟨0, 7, 25⟩ "00:00:02.500".toList
      = (⟨2500000000, 7, 25⟩, none)
    ∧ frameBased "00:00:02.500".toList = false
    ∧ ∃ p ds, "00:00:01:10".toList = p ++ ':' :: ds
        ∧ afterLastColon "00:00:01:10".toList = some ds
        ∧ FindStringIndex "00:00:01:10".toList = some (p.length, "00:00:01:10".toList.length)
        ∧ (TTMLDuration.UnmarshalText parseDuration ⟨0, 7, 25⟩ "00:00:01:10".toList).1.frames
            = (Atoi ds).1
        ∧ ((Atoi ds).2 = none →
            TTMLDuration.UnmarshalText parseDuration ⟨0, 7, 25⟩ "00:00:01:10".toList
              = (⟨(parseDuration (p ++ ".000".toList) '.').1, (Atoi ds).1, 25⟩,
                 (parseDuration (p ++ ".000".toList) '.').2))
        ∧ (∀ e, (Atoi ds).2 = some e →
            (TTMLDuration.UnmarshalText parseDuration ⟨0, 7, 25⟩ "00:00:01:10".toList).2
              = some (Error.atoiFailed e ds)) :=
  ⟨(unmarshalText_forms parseDuration ⟨0, 7, 25⟩ "00:00:02.500".toList).1 (by decide),
   (unmarshalText_forms parseDuration ⟨0, 7, 25⟩ "00:00:02.500".toList).2.1
      "00:00:02".toList "500".toList (by decide) (by decide),
   (unmarshalText_forms parseDuration ⟨0, 7, 25⟩ "00:00:01:10".toList).2.2 (by decide)⟩


/-! ### The frame offset within a second -/

/-- The `float64` product behind `frameNanos`, against the exact quotient
`fff * 10 ^ 9 / r`: the two roundings move it by at most the fraction
`2 ^ (-52) + 2 ^ (-106)` of the quotient, and `frameNanos` is its integer
part. -/
theorem frameNanos_val (fff r : Int) (hf : 0 ≤ fff) (hf53 : fff < 2 ^ 53)
    (hr : 0 < r) (hr53 : r < 2 ^ 53) (hq : fff * 10 ^ 9 < r * 2 ^ 51) :
    ∃ z : ℚ, 0 ≤ frameNanos fff r ∧ (frameNanos fff r : ℚ) ≤ z ∧ z < (frameNanos fff r : ℚ) + 1
      ∧ z ≤ (fff : ℚ) * 10 ^ 9 / r * (1 + (1 / 4503599627370496 + 1 / 81129638414606681695789005144064))
      ∧ (fff : ℚ) * 10 ^ 9 / r * (1 - (1 / 4503599627370496 + 1 / 81129638414606681695789005144064))
          ≤ z := by
  obtain ⟨hfv, hfm⟩ := Float64.ofInt_val fff hf hf53
  obtain ⟨hrv, hrm0⟩ := Float64.ofInt_val r hr.le hr53
  have hrq : (0 : ℚ) < r := by exact_mod_cast hr
  have hfq : (0 : ℚ) ≤ fff := by exact_mod_cast hf
  have hrm : 0 < (Float64.ofInt r).m := by
    rw [← Float64.val_pos_iff, hrv]; exact hrq
  obtain ⟨hdiv, hdm⟩ := Float64.div_error _ _ hfm hrm
  rw [hfv, hrv] at hdiv
  have hbm : (0 : Int) ≤ Float64.billion.m := by decide
  obtain ⟨hmul, hmm⟩ := Float64.mul_error _ Float64.billion hdm hbm
  have hbv : Float64.billion.val = 1000000000 := by
    simp [Float64.billion, Float64.val]
  rw [hbv] at hmul
  obtain ⟨ht0, htlo, hthi⟩ := Float64.trunc_bounds _ hmm
  set y := (Float64.div (Float64.ofInt fff) (Float64.ofInt r)).val with hy
  set z := (Float64.mul (Float64.div (Float64.ofInt fff) (Float64.ofInt r)) Float64.billion).val
    with hz
  set t := (Float64.mul (Float64.div (Float64.ofInt fff) (Float64.ofInt r)) Float64.billion).trunc
    with ht
  set x : ℚ := (fff : ℚ) / r with hx
  have hx0 : 0 ≤ x := by positivity
  have hxX : (fff : ℚ) * 10 ^ 9 / r = x * 1000000000 := by rw [hx]; ring
  have hXlt : x * 1000000000 < 2 ^ 51 := by
    rw [← hxX, div_lt_iff₀ hrq]
    have : ((fff * 10 ^ 9 : Int) : ℚ) < ((r * 2 ^ 51 : Int) : ℚ) := by exact_mod_cast hq
    push_cast at this
    linarith
  have hu : (2 : ℚ) ^ (-53 : Int) = 1 / 9007199254740992 := by
    rw [zpow_neg]; norm_num
  rw [hu, abs_le] at hdiv hmul
  have hup : z ≤ x * 1000000000
      * (1 + (1 / 4503599627370496 + 1 / 81129638414606681695789005144064)) := by
    linarith [hdiv.2, hmul.2]
  have hlow : x * 1000000000
      * (1 - (1 / 4503599627370496 + 1 / 81129638414606681695789005144064)) ≤ z := by
    linarith [hdiv.1, hdiv.2, hmul.1]
  have htlt : (t : ℚ) < ((2 ^ 52 : Int) : ℚ) := by
    push_cast
    have h1 : z < 2 ^ 52 := by
      norm_num at hXlt ⊢
      linarith
    linarith
  have htlt' : t < 2 ^ 52 := by exact_mod_cast htlt
  have hin : inInt64 t := by
    unfold inInt64
    constructor <;> omega
  have hfn : frameNanos fff r = t := by
    unfold frameNanos Float64.toInt64
    rw [if_pos hin]
  rw [hfn, hxX]
  exact ⟨z, ht0, htlo, hthi, hup, hlow⟩

/-- C15, as stated, fails at the ends of the `int` range: with
`9007199254740992` frames at frame rate `9007199254740993` (both convert to
the same `float64`) `Duration` adds a full second, and on the largest base
duration half a second makes the sum wrap below the base. -/
theorem duration_not_within_second :
    ((0 : Int) ≤ 9007199254740992 ∧ (9007199254740992 : Int) < 9007199254740993)
    ∧ (TTMLDuration.mk 0 9007199254740992 9007199254740993).Duration = 0 + 1000000000
    ∧ (TTMLDuration.mk 9223372036854775807 1 2).Duration < 9223372036854775807 := by
  decide

/-- C15, amended: for a frame rate below `2 ^ 51` and a base duration `d` with
`d + 1 s` within `int64`, frame counts `0 ≤ f1 ≤ f2 < framerate` give
`d ≤ Duration(f1) ≤ Duration(f2) < d + 1 s`: the offset stays within the
second and does not decrease with the frame count. -/
theorem duration_within_second (d r f1 f2 : Int) (hd : inInt64 d)
    (hsum : d + 10 ^ 9 < 2 ^ 63) (h0 : 0 ≤ f1) (h12 : f1 ≤ f2) (h2r : f2 < r)
    (hr : r < 2 ^ 51) :
    d ≤ (TTMLDuration.mk d f1 r).Duration
    ∧ (TTMLDuration.mk d f1 r).Duration ≤ (TTMLDuration.mk d f2 r).Duration
    ∧ (TTMLDuration.mk d f2 r).Duration < d + 10 ^ 9 := by
  have hrpos : 0 < r := by omega
  have hrq : (0 : ℚ) < r := by exact_mod_cast hrpos
  have hq1 : f1 * 10 ^ 9 < r * 2 ^ 51 := by nlinarith
  have hq2 : f2 * 10 ^ 9 < r * 2 ^ 51 := by nlinarith
  obtain ⟨z1, hn1, hlo1, hhi1, hup1, hlow1⟩ :=
    frameNanos_val f1 r h0 (by omega) hrpos (by omega) hq1
  obtain ⟨z2, hn2, hlo2, hhi2, hup2, hlow2⟩ :=
    frameNanos_val f2 r (by omega) (by omega) hrpos (by omega) hq2
  -- one frame in nanoseconds
  set w : ℚ := 1000000000 / r with hw
  have hwpos : 0 < w := by positivity
  have hX : ∀ f : Int, (f : ℚ) * 10 ^ 9 / r = f * w := by
    intro f; rw [hw]; ring
  rw [hX] at hup1 hlow1 hup2 hlow2
  have hrw : (r : ℚ) * w = 1000000000 := by
    rw [hw]; field_simp
  have hrle : (r : ℚ) ≤ 2251799813685247 := by
    have : r ≤ 2251799813685247 := by omega
    exact_mod_cast this
  -- a frame is far longer than the rounding error of a second
  have hwbig : 2 * 1000000000
      * (1 / 4503599627370496 + 1 / 81129638414606681695789005144064) < w := by
    rw [hw, lt_div_iff₀ hrq]
    nlinarith
  have hf2 : (f2 : ℚ) * w ≤ 1000000000 - w := by
    have : (f2 : ℚ) ≤ r - 1 := by
      have : f2 ≤ r - 1 := by omega
      exact_mod_cast this
    nlinarith
  have hf1nn : (0 : ℚ) ≤ (f1 : ℚ) * w := by
    have : (0 : ℚ) ≤ f1 := by exact_mod_cast h0
    positivity
  have hf2nn : (0 : ℚ) ≤ (f2 : ℚ) * w := by
    have : (0 : ℚ) ≤ f2 := by exact_mod_cast (le_trans h0 h12)
    positivity
  -- below one second
  have hlt : frameNanos f2 r < 10 ^ 9 := by
    have h : (frameNanos f2 r : ℚ) < ((10 ^ 9 : Int) : ℚ) := by
      push_cast
      linarith
    exact_mod_cast h
  -- not decreasing
  have hmono : frameNanos f1 r ≤ frameNanos f2 r := by
    rcases eq_or_lt_of_le h12 with heq | hlt12
    · rw [heq]
    · have hstep : (f1 : ℚ) * w + w ≤ (f2 : ℚ) * w := by
        have : (f1 : ℚ) + 1 ≤ f2 := by
          have : f1 + 1 ≤ f2 := by omega
          exact_mod_cast this
        nlinarith
      have hf1 : (f1 : ℚ) * w ≤ 1000000000 := by linarith
      have h : (frameNanos f1 r : ℚ) < (frameNanos f2 r : ℚ) + 1 := by linarith
      have h' : frameNanos f1 r < frameNanos f2 r + 1 := by exact_mod_cast h
      omega
  unfold inInt64 at hd
  have hdur : ∀ f : Int, 0 ≤ frameNanos f r → frameNanos f r < 10 ^ 9 →
      (TTMLDuration.mk d f r).Duration = d + frameNanos f r := by
    intro f hnn hlt9
    have hin1 : inInt64 (frameNanos f r * 1) := by
      unfold inInt64; constructor <;> omega
    have hin2 : inInt64 (d + frameNanos f r * 1) := by
      unfold inInt64; constructor <;> omega
    simp only [TTMLDuration.Duration, gt_iff_lt, hrpos, if_true]
    rw [wrapInt64_of_inInt64 _ hin1, wrapInt64_of_inInt64 _ hin2, mul_one]
  rw [hdur f1 hn1 (by omega), hdur f2 hn2 hlt]
  refine ⟨by omega, by omega, by omega⟩

/-- Witness of C15: frames 10 and 24 at 25 frames per second after one second. -/
theorem duration_within_second_witness :
    (1000000000 : Int) ≤ (TTMLDuration.mk 1000000000 10 25).Duration
    ∧ (TTMLDuration.mk 1000000000 10 25).Duration ≤ (TTMLDuration.mk 1000000000 24 25).Duration
    ∧ (TTMLDuration.mk 1000000000 24 25).Duration < 1000000000 + 10 ^ 9 :=
  duration_within_second 1000000000 25 10 24 (by decide) (by decide) (by decide) (by decide)
    (by decide) (by decide)

end Astisub
